import Mathlib

/-
Verification of the ingredient parsing / aggregation / formatting core of the
ReynoldsRecipes repository (src/recipes/ingredient_parser.py and the
shopping_list view in src/recipes/views.py).

The Python code is shallowly embedded:
  * Python floats are modelled as exact rationals (ℚ); the values reached in
    all statements below are exactly representable, so no rounding is lost.
  * Python strings are modelled as Lean String / List Char; only ASCII inputs
    are modelled (the regexes in the source use ASCII classes on such inputs).
  * A Python function that can raise ZeroDivisionError returns an inductive
    result with an explicit error constructor.
  * The concrete regular expressions of the source are hand-compiled into
    backtracking matchers that enumerate alternatives in the same preference
    order as CPython's re engine (greedy = longest first, lazy = shortest
    first, optional group = present first), so group assignments agree with
    the engine on the modelled inputs.
  * Fraction.limit_denominator is embedded by transcribing the CPython
    algorithm (continued-fraction loop over the Stern-Brocot bounds).
  * float(str) is embedded on the decimal grammar (sign, digits, optional
    fractional part, optional exponent); the inf/nan words and underscore
    separators accepted by CPython are not modelled - no statement below
    depends on them.
-/

/-! ### Character classes and small list utilities -/

/-- ASCII decimal digit, the class `[0-9]` (also `\d` on ASCII input). -/
def isDigitC (c : Char) : Bool := 48 ≤ c.toNat && c.toNat ≤ 57

/-- Python whitespace `\s` on ASCII input: space, tab, newline, CR, VT, FF. -/
def isWSC (c : Char) : Bool :=
  c = ' ' || c = '\t' || c = '\n' || c = '\r' || c = '\x0b' || c = '\x0c'

/-- The class `[a-z]` under re.IGNORECASE, on ASCII input. -/
def isAlphaC (c : Char) : Bool :=
  (97 ≤ c.toNat && c.toNat ≤ 122) || (65 ≤ c.toNat && c.toNat ≤ 90)

/-- Length of the longest prefix of `l` whose characters satisfy `p`. -/
def maxRun (p : Char → Bool) : List Char → Nat
  | [] => 0
  | c :: t => if p c then maxRun p t + 1 else 0

/-- Python `str.strip()` on ASCII input: drop whitespace at both ends. -/
def pyStrip (l : List Char) : List Char :=
  ((l.dropWhile isWSC).reverse.dropWhile isWSC).reverse

/-- ASCII lowercase of one character, modelling `str.lower()` per character. -/
def toLowerC (c : Char) : Char :=
  if 65 ≤ c.toNat && c.toNat ≤ 90 then Char.ofNat (c.toNat + 32) else c

/-- Python `str.lower()` on ASCII input. -/
def toLowerL (l : List Char) : List Char := l.map toLowerC

/-- Numeric value of a digit character. -/
def digitVal (c : Char) : Nat := c.toNat - 48

/-- Numeric value of a digit string, modelling `int(...)` on a digit run. -/
def valOf (l : List Char) : Nat := l.foldl (fun a c => 10 * a + digitVal c) 0

/-- Decimal rendering worker: emits the digits of `n` before `acc`.
The fuel argument only bounds the recursion; `fuel = n` always suffices. -/
def pyStrNatAux : Nat → Nat → List Char → List Char
  | 0, n, acc => Nat.digitChar (n % 10) :: acc
  | fuel + 1, n, acc =>
    if n < 10 then Nat.digitChar n :: acc
    else pyStrNatAux fuel (n / 10) (Nat.digitChar (n % 10) :: acc)

/-- Decimal digits of a natural number, modelling Python `str(n)` for `n ≥ 0`. -/
def pyStrNatL (n : Nat) : List Char := pyStrNatAux n n []

/-- Decimal rendering of an integer, modelling Python `str(i)`. -/
def pyStrIntL (i : Int) : List Char :=
  if i < 0 then '-' :: pyStrNatL (-i).toNat else pyStrNatL i.toNat

/-! ### Model of CPython `float(str)` on the decimal grammar -/

/-- 10 raised to an integer power, as a rational. -/
def pow10 (e : Int) (v : ℚ) : ℚ :=
  if 0 ≤ e then v * (10 : ℚ) ^ e.toNat else v / (10 : ℚ) ^ (-e).toNat

/-- Exponent digits: `[0-9]+` then end of string. -/
def pyFloatExpDigits (v : ℚ) (neg : Bool) (r : List Char) : Option ℚ :=
  let ds := r.takeWhile isDigitC
  let rest := r.dropWhile isDigitC
  if ds = [] then none
  else if rest = [] then
    some (pow10 (if neg then -(valOf ds : Int) else (valOf ds : Int)) v)
  else none

/-- Optional sign of the exponent. -/
def pyFloatExpSigned (v : ℚ) (r : List Char) : Option ℚ :=
  match r with
  | [] => none
  | c :: r2 =>
    if c = '+' then pyFloatExpDigits v false r2
    else if c = '-' then pyFloatExpDigits v true r2
    else pyFloatExpDigits v false r

/-- Optional exponent part `([eE][+-]?[0-9]+)?` then end of string. -/
def pyFloatExp (v : ℚ) (r : List Char) : Option ℚ :=
  match r with
  | [] => some v
  | c :: r2 => if c = 'e' || c = 'E' then pyFloatExpSigned v r2 else none

/-- Mantissa: `[0-9]+ | [0-9]* . [0-9]* ` with at least one digit overall. -/
def pyFloatBody (r : List Char) : Option ℚ :=
  let d1 := r.takeWhile isDigitC
  let r1 := r.dropWhile isDigitC
  match r1 with
  | [] => if d1 = [] then none else some ((valOf d1 : ℚ))
  | c :: r2 =>
    if c = '.' then
      let d2 := r2.takeWhile isDigitC
      let r3 := r2.dropWhile isDigitC
      if d1 = [] && d2 = [] then none
      else pyFloatExp ((valOf d1 : ℚ) + (valOf d2 : ℚ) / (10 : ℚ) ^ d2.length) r3
    else if d1 = [] then none else pyFloatExp ((valOf d1 : ℚ)) r1

/-- Optional leading sign of the literal. -/
def pyFloatSigned (r : List Char) : Option ℚ :=
  match r with
  | [] => none
  | c :: r2 =>
    if c = '+' then pyFloatBody r2
    else if c = '-' then (pyFloatBody r2).map (fun v => -v)
    else pyFloatBody r

/-- Model of CPython `float(s)`: strip whitespace, then signed decimal
literal with optional fraction and exponent.  Returns `none` where CPython
raises ValueError. -/
def pyFloat (l : List Char) : Option ℚ :=
  let t := pyStrip l
  if t = [] then none else pyFloatSigned t

/-! ### parse_quantity (ingredient_parser.py lines 61-92) -/

/-- Result of a Python function returning `Optional[float]` that may raise
ZeroDivisionError. -/
inductive PyParse where
  | value : ℚ → PyParse
  | noneVal : PyParse
  | zeroDivisionError : PyParse
deriving DecidableEq

/-- The anchored regex `^(\d+)\s+(\d+)/(\d+)$` (mixed fraction like "1 1/2").
The pattern is deterministic - adjacent pieces draw from disjoint character
classes followed by forced literals - so maximal-run matching is exact. -/
def mixedMatch (t : List Char) : Option (Nat × Nat × Nat) :=
  let d1 := t.takeWhile isDigitC
  let r1 := t.dropWhile isDigitC
  if d1 = [] then none else
  let w := r1.takeWhile isWSC
  let r2 := r1.dropWhile isWSC
  if w = [] then none else
  let d2 := r2.takeWhile isDigitC
  let r3 := r2.dropWhile isDigitC
  if d2 = [] then none else
  match r3 with
  | [] => none
  | c :: r4 =>
    if c = '/' then
      let d3 := r4.takeWhile isDigitC
      let r5 := r4.dropWhile isDigitC
      if d3 = [] then none
      else if r5 = [] then some (valOf d1, valOf d2, valOf d3)
      else none
    else none

/-- The anchored regex `^(\d+)/(\d+)$` (simple fraction like "1/2"). -/
def simpleMatch (t : List Char) : Option (Nat × Nat) :=
  let d1 := t.takeWhile isDigitC
  let r1 := t.dropWhile isDigitC
  if d1 = [] then none else
  match r1 with
  | [] => none
  | c :: r2 =>
    if c = '/' then
      let d2 := r2.takeWhile isDigitC
      let r3 := r2.dropWhile isDigitC
      if d2 = [] then none
      else if r3 = [] then some (valOf d1, valOf d2)
      else none
    else none

/-- `parse_quantity` (ingredient_parser.py lines 61-92): strip, then try
mixed fraction, simple fraction, and finally `float(...)`.  A fraction with
denominator 0 reaches Python's `/` on ints and raises ZeroDivisionError. -/
def parse_quantity (s : String) : PyParse :=
  let t := pyStrip s.data
  if t = [] then .noneVal
  else
    match mixedMatch t with
    | some (w, nu, de) =>
      if de = 0 then .zeroDivisionError
      else .value ((w : ℚ) + (nu : ℚ) / (de : ℚ))
    | none =>
      match simpleMatch t with
      | some (nu, de) =>
        if de = 0 then .zeroDivisionError
        else .value ((nu : ℚ) / (de : ℚ))
      | none =>
        match pyFloat t with
        | some v => .value v
        | none => .noneVal

/-! ### Fraction.limit_denominator (CPython fractions.py), used by format_quantity -/

/-- State of CPython's `limit_denominator` continued-fraction loop:
`p0/q0` and `p1/q1` are the two running convergents, `n/d` the remaining
tail of the continued-fraction expansion. -/
structure LMState where
  p0 : Int
  q0 : Int
  p1 : Int
  q1 : Int
  n : Int
  d : Int
deriving DecidableEq

/-- One iteration of the loop body (the part after the break test). -/
def lmStep (s : LMState) : LMState :=
  let a := s.n.fdiv s.d
  { p0 := s.p1, q0 := s.q1, p1 := s.p0 + a * s.p1, q1 := s.q0 + a * s.q1,
    n := s.d, d := s.n - a * s.d }

/-- The break test `q2 > max_denominator` of the loop. -/
def lmBreak (maxD : Int) (s : LMState) : Bool :=
  maxD < s.q0 + (s.n.fdiv s.d) * s.q1

/-- The `while True` loop of `limit_denominator`.  The fuel argument only
bounds the iteration count; `d` strictly decreases on every executed
iteration, so fuel `d + 1` always reaches the break. -/
def lmLoop (maxD : Int) : Nat → LMState → LMState
  | 0, s => s
  | fuel + 1, s => if lmBreak maxD s then s else lmLoop maxD fuel (lmStep s)

/-- Final state of the loop for input `q` (only reached when `q.den > maxD`). -/
def lmFinal (maxD : Nat) (q : ℚ) : LMState :=
  lmLoop (maxD : Int) (q.den + 1)
    { p0 := 0, q0 := 1, p1 := 1, q1 := 0, n := q.num, d := (q.den : Int) }

/-- Invariant of the `limit_denominator` loop for input `n0 / d0` and
`max_denominator = 8`: the remaining tail reconstructs the input through
the convergent matrix, the matrix has determinant ±1, and the convergent
denominators stay within the bound. -/
def LMInv (n0 d0 : Int) (s : LMState) : Prop :=
  1 ≤ s.d ∧
  s.p1 * s.n + s.p0 * s.d = n0 ∧
  s.q1 * s.n + s.q0 * s.d = d0 ∧
  (s.p1 * s.q0 - s.p0 * s.q1 = 1 ∨ s.p1 * s.q0 - s.p0 * s.q1 = -1) ∧
  0 ≤ s.q0 ∧ 0 ≤ s.q1 ∧ s.q0 ≤ 8 ∧ s.q1 ≤ 8 ∧
  (1 ≤ s.q1 → s.d ≤ s.n)

/-- CPython `Fraction.limit_denominator`: if the denominator already fits,
return the value unchanged; otherwise run the Stern-Brocot loop and return
whichever of the two bounds is closer (ties to `bound2 = p1/q1`). -/
def limit_denominator (q : ℚ) (maxD : Nat) : ℚ :=
  if q.den ≤ maxD then q
  else
    let s := lmFinal maxD q
    let k := ((maxD : Int) - s.q0).fdiv s.q1
    let b1 : ℚ := ((s.p0 + k * s.p1 : Int) : ℚ) / ((s.q0 + k * s.q1 : Int) : ℚ)
    let b2 : ℚ := ((s.p1 : Int) : ℚ) / ((s.q1 : Int) : ℚ)
    if |b2 - q| ≤ |b1 - q| then b2 else b1

/-! ### format_quantity (ingredient_parser.py lines 180-217) -/

/-- `unit.endswith('s')`. -/
def unitEndsS (u : String) : Bool := u.data.getLast? = some 's'

/-- The quantity string built by `format_quantity` from the limited fraction:
integer when the denominator is 1, mixed `"w r/d"` when the numerator
exceeds the denominator (falling back to the whole part when the remainder
is 0), plain `"n/d"` otherwise. -/
def qtyChars (frac : ℚ) : List Char :=
  if frac.den = 1 then pyStrIntL frac.num
  else if (frac.den : Int) < frac.num then
    let whole := frac.num.fdiv (frac.den : Int)
    let remainder := frac.num.fmod (frac.den : Int)
    if remainder ≠ 0 then
      pyStrIntL whole ++ ' ' :: (pyStrIntL remainder ++ '/' :: pyStrNatL frac.den)
    else pyStrIntL whole
  else pyStrIntL frac.num ++ '/' :: pyStrNatL frac.den

/-- The displayed unit: append `'s'` exactly when the unit string is truthy,
the (pre-rounding) quantity is strictly greater than 1, and the unit does
not already end in `'s'` (lines 211-215). -/
def unitDisplay (quantity : ℚ) (u : String) : String :=
  if u ≠ "" ∧ 1 < quantity ∧ unitEndsS u = false then u ++ "s" else u

/-- `format_quantity` (lines 180-217). -/
def format_quantity (quantity : Option ℚ) (unit : Option String) : String :=
  match quantity with
  | none => unit.getD ""
  | some q =>
    let frac := limit_denominator q 8
    let ud : String :=
      match unit with
      | none => ""
      | some u => unitDisplay q u
    String.mk (pyStrip (qtyChars frac ++ ' ' :: ud.data))

/-! ### Backtracking combinators for the hand-compiled regexes -/

/-- Try `f hi`, `f (hi-1)`, ..., `f lo`, returning the first success:
the preference order of a greedy quantifier. -/
def tryDesc (lo : Nat) (f : Nat → Option α) : Nat → Option α
  | 0 => if lo = 0 then f 0 else none
  | hi + 1 => if hi + 1 < lo then none else (f (hi + 1) <|> tryDesc lo f hi)

/-- Try `f lo`, `f (lo+1)`, ..., `f (lo+fuel-1)`, returning the first
success: the preference order of a lazy quantifier. -/
def tryAsc (f : Nat → Option α) : Nat → Nat → Option α
  | _, 0 => none
  | lo, fuel + 1 => f lo <|> tryAsc f (lo + 1) fuel

/-! ### normalize_ingredient (ingredient_parser.py lines 95-136)

The pattern is `^([0-9./\s]+)?\s*([a-z]{1,}(?:\s+[a-z]+)?)?\s*(.+)$` with
re.IGNORECASE, hand-compiled below with the engine's preference order. -/

/-- The class `[0-9./\s]`. -/
def isQty1C (c : Char) : Bool := isDigitC c || c = '.' || c = '/' || isWSC c

/-- Groups (1), (2), (3) of the normalize_ingredient pattern. -/
abbrev NormGroups := Option (List Char) × Option (List Char) × List Char

/-- Tail of the pattern: `(.+)$` - group 3 takes the whole rest, which must
be nonempty and free of newlines (`.` does not match a newline). -/
def nmFinal (g1 g2 : Option (List Char)) (rest : List Char) : Option NormGroups :=
  if rest ≠ [] ∧ rest.all (fun c => c ≠ '\n') then some (g1, g2, rest) else none

/-- `\s*(.+)$` after group 2. -/
def nmAfterUnit (g1 g2 : Option (List Char)) (s : List Char) : Option NormGroups :=
  tryDesc 0 (fun j => nmFinal g1 g2 (s.drop j)) (maxRun isWSC s)

/-- Group 2 present: `[a-z]{1,}(?:\s+[a-z]+)?` then the tail. -/
def nmUnitPresent (g1 : Option (List Char)) (s : List Char) : Option NormGroups :=
  tryDesc 1 (fun i =>
    let w1 := s.take i
    let s1 := s.drop i
    (tryDesc 1 (fun j =>
      let s2 := s1.drop j
      tryDesc 1 (fun k =>
        nmAfterUnit g1 (some (w1 ++ s1.take j ++ s2.take k)) (s2.drop k))
        (maxRun isAlphaC s2))
      (maxRun isWSC s1))
    <|> nmAfterUnit g1 (some w1) s1)
    (maxRun isAlphaC s)

/-- Optional group 2 (greedy: present first, then absent). -/
def nmAfterQty (g1 : Option (List Char)) (s : List Char) : Option NormGroups :=
  nmUnitPresent g1 s <|> nmAfterUnit g1 none s

/-- `\s*` between group 1 and group 2. -/
def nmAfterG1 (g1 : Option (List Char)) (s : List Char) : Option NormGroups :=
  tryDesc 0 (fun j => nmAfterQty g1 (s.drop j)) (maxRun isWSC s)

/-- The full normalize_ingredient pattern, anchored at both ends. -/
def normMatch (s : List Char) : Option NormGroups :=
  (tryDesc 1 (fun i => nmAfterG1 (some (s.take i)) (s.drop i)) (maxRun isQty1C s))
  <|> nmAfterG1 none s

/-- UNIT_MAP (ingredient_parser.py lines 11-47): variant spelling to
canonical unit; `none` models a missing key. -/
def UNIT_MAP : String → Option String
  | "tsp" => some "tsp"
  | "teaspoon" => some "tsp"
  | "tbsp" => some "tbsp"
  | "tablespoon" => some "tbsp"
  | "cup" => some "cup"
  | "cups" => some "cup"
  | "ml" => some "ml"
  | "milliliter" => some "ml"
  | "l" => some "l"
  | "liter" => some "l"
  | "oz" => some "oz"
  | "ounce" => some "oz"
  | "pt" => some "pt"
  | "pint" => some "pt"
  | "g" => some "g"
  | "gram" => some "g"
  | "kg" => some "kg"
  | "kilogram" => some "kg"
  | "lb" => some "lb"
  | "lbs" => some "lb"
  | "pound" => some "lb"
  | "pc" => some "pc"
  | "piece" => some "pc"
  | "clove" => some "clove"
  | "cloves" => some "clove"
  | "bunch" => some "bunch"
  | "can" => some "can"
  | "jar" => some "jar"
  | "package" => some "package"
  | "pkg" => some "package"
  | _ => none

/-- Result of `normalize_ingredient`, which can propagate the
ZeroDivisionError of `parse_quantity`. -/
inductive NormResult where
  | ok : Option ℚ → Option String → String → NormResult
  | zeroDivisionError : NormResult
deriving DecidableEq

/-- `normalize_ingredient` (lines 95-136): strip, run the pattern, parse the
quantity group, canonicalize the unit group via `UNIT_MAP.get(u, u)`,
lowercase the name group. -/
def normalize_ingredient (line : String) : NormResult :=
  let l := pyStrip line.data
  if l = [] then .ok none none ""
  else
    match normMatch l with
    | none => .ok none none (String.mk l)
    | some (g1, g2, g3) =>
      let qres : PyParse :=
        match g1 with
        | some qs => parse_quantity (String.mk (pyStrip qs))
        | none => .noneVal
      let unit : Option String :=
        match g2 with
        | some us =>
          let ul := String.mk (toLowerL (pyStrip us))
          some ((UNIT_MAP ul).getD ul)
        | none => none
      let name : String := if g3 = [] then "" else String.mk (toLowerL (pyStrip g3))
      match qres with
      | .zeroDivisionError => .zeroDivisionError
      | .value v => .ok (some v) unit name
      | .noneVal => .ok none unit name

/-! ### Python dict as an insertion-ordered association list -/

/-- Lookup, modelling `d[k]` / `k in d`. -/
def dictGet? (k : String) : List (String × α) → Option α
  | [] => none
  | (k', v) :: t => if k' = k then some v else dictGet? k t

/-- Update-or-append, modelling `d[k] = v` (existing keys keep their
position, new keys are appended: CPython insertion order). -/
def dictSet (k : String) (v : α) : List (String × α) → List (String × α)
  | [] => [(k, v)]
  | (k', v') :: t => if k' = k then (k, v) :: t else (k', v') :: dictSet k v t

/-! ### aggregate_ingredients (ingredient_parser.py lines 139-177) -/

/-- CONVERSIONS (lines 50-58): milliliters per unit, Volume family only. -/
def CONVERSIONS : String → Option ℚ
  | "tsp" => some 5
  | "tbsp" => some 15
  | "cup" => some 240
  | "ml" => some 1
  | "l" => some 1000
  | "oz" => some 30
  | "pt" => some 473
  | _ => none

/-- `CONVERSIONS` lookup for an optional unit (`None in CONVERSIONS` is
False in Python). -/
def convOf : Option String → Option ℚ
  | some u => CONVERSIONS u
  | none => none

/-- Python truthiness of an optional float: `None` and `0.0` are falsy. -/
def optTruthy : Option ℚ → Bool
  | none => false
  | some v => v ≠ 0

/-- The decorated key `f"{name} ({unit})" if unit else name` of the
non-convertible branch (lines 172, 174). -/
def decoratedKey (name : String) : Option String → String
  | some u => if u ≠ "" then name ++ " (" ++ u ++ ")" else name
  | none => name

/-- The loop body of `aggregate_ingredients` for one `(name, (qty, unit))`
item (lines 150-175). -/
def aggStep (agg : List (String × Option ℚ × Option String))
    (item : String × Option ℚ × Option String) :
    List (String × Option ℚ × Option String) :=
  let name := item.1
  let qty := item.2.1
  let unit := item.2.2
  match dictGet? name agg with
  | none => dictSet name (qty, unit) agg
  | some (eqty, eunit) =>
    if unit = eunit then
      dictSet name (some (eqty.getD 0 + qty.getD 0), unit) agg
    else
      match convOf unit, convOf eunit with
      | some cu, some ceu =>
        let total := eqty.getD 0 * ceu + qty.getD 0 * cu
        dictSet name (some (total / ceu), eunit) agg
      | _, _ =>
        let agg1 := dictSet (decoratedKey name eunit) (eqty, eunit) agg
        dictSet (decoratedKey name unit) (qty, unit) agg1

/-- `aggregate_ingredients` (lines 139-177): fold the loop body over the
items of the input dict in insertion order. -/
def aggregate_ingredients (ingredients : List (String × Option ℚ × Option String)) :
    List (String × Option ℚ × Option String) :=
  ingredients.foldl aggStep []

/-! ### shopping_list (views.py lines 98-176)

The item pattern is `^([0-9.]+)?\s*([a-z]+)?\s*(.+?)(?:\s*\(([^)]+)\))?\s*$`
with re.IGNORECASE, hand-compiled with the engine's preference order
(`(.+?)` is lazy, the optional paren group is greedy). -/

/-- The class `[0-9.]`. -/
def isQty2C (c : Char) : Bool := isDigitC c || c = '.'

/-- Groups (1)-(4) of the shopping-list item pattern. -/
abbrev ViewGroups :=
  Option (List Char) × Option (List Char) × List Char × Option (List Char)

/-- The sub-pattern `\s*\(([^)]+)\)`: returns the captured content and the
rest of the input after the closing paren. -/
def vParen (s : List Char) : Option (List Char × List Char) :=
  tryDesc 0 (fun j =>
    match s.drop j with
    | [] => none
    | c :: s2 =>
      if c = '(' then
        let content := s2.takeWhile (fun ch => ch ≠ ')')
        let rest := s2.dropWhile (fun ch => ch ≠ ')')
        if content = [] then none
        else
          match rest with
          | [] => none
          | r :: s3 => if r = ')' then some (content, s3) else none
      else none) (maxRun isWSC s)

/-- After group 3: optional paren group (present first), then `\s*$`. -/
def vAfterName (g1 g2 : Option (List Char)) (g3 : List Char) (s : List Char) :
    Option ViewGroups :=
  (match vParen s with
   | some (g4, s3) => if s3.all isWSC then some (g1, g2, g3, some g4) else none
   | none => none)
  <|> (if s.all isWSC then some (g1, g2, g3, none) else none)

/-- Group 3 `(.+?)` - lazy, shortest first, `.` does not match a newline. -/
def vName (g1 g2 : Option (List Char)) (s : List Char) : Option ViewGroups :=
  tryAsc (fun i => vAfterName g1 g2 (s.take i) (s.drop i)) 1
    (maxRun (fun c => c ≠ '\n') s)

/-- `\s*` between group 2 and group 3. -/
def vAfterUnit (g1 g2 : Option (List Char)) (s : List Char) : Option ViewGroups :=
  tryDesc 0 (fun j => vName g1 g2 (s.drop j)) (maxRun isWSC s)

/-- Optional group 2 `([a-z]+)?` (greedy: present first, longest first). -/
def vUnit (g1 : Option (List Char)) (s : List Char) : Option ViewGroups :=
  (tryDesc 1 (fun i => vAfterUnit g1 (some (s.take i)) (s.drop i))
    (maxRun isAlphaC s))
  <|> vAfterUnit g1 none s

/-- `\s*` between group 1 and group 2. -/
def vAfterQty (g1 : Option (List Char)) (s : List Char) : Option ViewGroups :=
  tryDesc 0 (fun j => vUnit g1 (s.drop j)) (maxRun isWSC s)

/-- The full shopping-list item pattern, anchored at both ends. -/
def viewsItemMatch (s : List Char) : Option ViewGroups :=
  (tryDesc 1 (fun i => vAfterQty (some (s.take i)) (s.drop i)) (maxRun isQty2C s))
  <|> vAfterQty none s

/-- A stored recipe, restricted to the two fields `shopping_list` reads. -/
structure Recipe where
  title : String
  ingredients : String

/-- The two dicts built by the `shopping_list` view:
`ingredients_dict : name -> (quantity, unit)` and
`recipe_sources : name -> list of recipe titles`. -/
structure ShopState where
  dict : List (String × Option ℚ × String)
  sources : List (String × List String)
deriving DecidableEq

/-- Lines 137-158 of views.py: given the parsed `(qty, unit, ing_name)` of
one item and the recipe title, update `recipe_sources` (append the title
only if not already recorded) and `ingredients_dict` (sum quantities when
units are equal; otherwise, when both quantities are truthy, add them and
keep the first-seen unit). -/
def recordEntry (title : String) (qty : Option ℚ) (unit : String)
    (ing_name : String) (st : ShopState) : ShopState :=
  if ing_name = "" then st
  else
    let cur := (dictGet? ing_name st.sources).getD []
    let cur2 := if title ∈ cur then cur else cur ++ [title]
    let sources2 := dictSet ing_name cur2 st.sources
    let dict2 :=
      match dictGet? ing_name st.dict with
      | none => dictSet ing_name (qty, unit) st.dict
      | some (eqty, eunit) =>
        if unit = eunit ∨ (unit = "" ∧ eunit = "") then
          let new_qty := if optTruthy qty then some (eqty.getD 0 + qty.getD 0) else eqty
          dictSet ing_name
            ((if optTruthy new_qty then new_qty else none),
              (if unit = "" then eunit else unit)) st.dict
        else if optTruthy eqty ∧ optTruthy qty then
          dictSet ing_name (some (eqty.getD 0 + qty.getD 0), eunit) st.dict
        else st.dict
    { dict := dict2, sources := sources2 }

/-- Lines 117-158 of views.py for one comma-separated item: strip, skip if
empty, run the item pattern, convert the groups (`or ''`, `strip`,
`float` with ValueError giving None) and record the entry. -/
def processItem (title : String) (st : ShopState) (item : List Char) : ShopState :=
  let it := pyStrip item
  if it = [] then st
  else
    match viewsItemMatch it with
    | none => st
    | some (g1, g2, g3, _) =>
      let qty_str := g1.getD []
      let unit := String.mk (g2.getD [])
      let ing_name := if g3 = [] then "" else String.mk (pyStrip g3)
      let qty : Option ℚ := if qty_str = [] then none else pyFloat qty_str
      recordEntry title qty unit ing_name st

/-- Python `str.split(',')`. -/
def splitCommas : List Char → List (List Char)
  | [] => [[]]
  | c :: t =>
    if c = ',' then [] :: splitCommas t
    else
      match splitCommas t with
      | [] => [[c]]
      | h :: r => (c :: h) :: r

/-- The inner loop of `shopping_list` over one recipe's ingredient items. -/
def processRecipe (st : ShopState) (r : Recipe) : ShopState :=
  (splitCommas r.ingredients.data).foldl (processItem r.title) st

/-- The parsing/aggregation phase of the `shopping_list` view (lines
109-158) over the selected recipes, in order. -/
def shopping_list (rs : List Recipe) : ShopState :=
  rs.foldl processRecipe { dict := [], sources := [] }

/-- The per-ingredient recipe count displayed by the view
(`len(recipe_sources.get(ing_name, []))`, line 165). -/
def recipeCount (st : ShopState) (name : String) : Nat :=
  ((dictGet? name st.sources).getD []).length

/-! ### Sanity checks of the embedding against the spec's test table -/
example : limit_denominator (1/3) 8 = 1/3 := by with_unfolding_all decide

example : limit_denominator (0.05 : ℚ) 8 = 0 := by with_unfolding_all decide

example : limit_denominator (7/16) 8 = 3/7 := by with_unfolding_all decide

example : limit_denominator (1/16) 8 = 0 := by with_unfolding_all decide

example : format_quantity (some (1/2)) (some "tsp") = "1/2 tsp" := by
  with_unfolding_all decide

example : format_quantity (some 2) (some "cup") = "2 cups" := by
  with_unfolding_all decide

example : format_quantity (some (3/2)) (some "tbsp") = "1 1/2 tbsps" := by
  with_unfolding_all decide

example : format_quantity (some (1/20)) (some "tsp") = "0 tsp" := by
  with_unfolding_all decide

example : format_quantity none none = "" := by with_unfolding_all decide

example : format_quantity (some (-(3/2))) none = "-3/2" := by
  with_unfolding_all decide

example : normalize_ingredient "flour" = .ok none (some "flou") "r" := by
  with_unfolding_all decide

example : normalize_ingredient "2 cups flour" = .ok (some 2) (some "cups flou") "r" := by
  with_unfolding_all decide

example : normalize_ingredient "salt to taste" = .ok none (some "salt to") "taste" := by
  with_unfolding_all decide

example : normalize_ingredient "" = .ok none none "" := by with_unfolding_all decide

example :
    aggregate_ingredients [("sugar", (some 1, some "cup")), ("sugar", (some 8, some "tbsp"))] =
      [("sugar", (some (3/2), some "cup"))] := by
  with_unfolding_all decide

example :
    aggregate_ingredients [("salt", (some 1, some "tsp")), ("salt", (some 200, some "g"))] =
      [("salt", (some 1, some "tsp")), ("salt (tsp)", (some 1, some "tsp")),
        ("salt (g)", (some 200, some "g"))] := by
  with_unfolding_all decide

example :
    (shopping_list [⟨"r1", "1 tsp salt"⟩, ⟨"r2", "200 g salt"⟩]).dict =
      [("salt", (some 201, "tsp"))] := by
  with_unfolding_all decide

example :
    (shopping_list [⟨"r1", "1 cup sugar"⟩, ⟨"r2", "8 tbsp sugar"⟩]).dict =
      [("sugar", (some 9, "cup"))] := by
  with_unfolding_all decide

example :
    (shopping_list [⟨"r1", "1 tsp salt, 2 tsp salt"⟩]).sources =
      [("salt", ["r1"])] := by
  with_unfolding_all decide


example : parse_quantity "1 1/2" = .value (3/2) := by with_unfolding_all decide
example : parse_quantity "1/2" = .value (1/2) := by with_unfolding_all decide
example : parse_quantity "2" = .value 2 := by with_unfolding_all decide
example : parse_quantity "" = .noneVal := by with_unfolding_all decide
example : parse_quantity "abc" = .noneVal := by with_unfolding_all decide
example : parse_quantity "1/0" = .zeroDivisionError := by with_unfolding_all decide
example : parse_quantity "-2" = .value (-2) := by with_unfolding_all decide
example : parse_quantity "-1.5" = .value (-(3/2)) := by with_unfolding_all decide
example : parse_quantity "1e2" = .value 100 := by with_unfolding_all decide
example : parse_quantity "1/2/3" = .noneVal := by with_unfolding_all decide

/-! ### Claim theorems (evaluation-based) -/

/-- C1: the claim says `parse_quantity` never raises on a zero denominator
and returns None for inputs like "1/0".  In fact both fraction branches
reach Python's `/` with denominator 0 and raise ZeroDivisionError: the code
evaluates to the error outcome at the failing inputs "1/0" and "1 1/0". -/
theorem claim_C1_parse_quantity_zero_denominator_raises :
    parse_quantity "1/0" = PyParse.zeroDivisionError ∧
    parse_quantity "1 1/0" = PyParse.zeroDivisionError ∧
    parse_quantity "1/0" ≠ PyParse.noneVal := by
  with_unfolding_all decide

/-- C2: the claim (and the function's own docstring) say
`normalize_ingredient "flour" = (None, None, "flour")`.  The greedy unit
group of the pattern backtracks one character so that `(.+)$` can match,
giving unit "flou" and name "r" instead. -/
theorem claim_C2_normalize_ingredient_flour :
    normalize_ingredient "flour" = NormResult.ok none (some "flou") "r" ∧
    normalize_ingredient "flour" ≠ NormResult.ok none none "flour" := by
  with_unfolding_all decide

/-- C3: the claim says a non-convertible different-unit merge keeps the
first-seen quantity unchanged, e.g. salt stays (1, "tsp").  The
shopping_list view instead adds the raw quantities whenever both are
truthy: 1 tsp + 200 g becomes (201, "tsp").  (Both recipes are still
recorded as contributors, and the unused `aggregate_ingredients`
non-convertible branch would indeed have kept ("salt", 1, "tsp").) -/
theorem claim_C3_nonconvertible_merge_adds_raw :
    (shopping_list [⟨"r1", "1 tsp salt"⟩, ⟨"r2", "200 g salt"⟩]).dict =
      [("salt", (some 201, "tsp"))] ∧
    (shopping_list [⟨"r1", "1 tsp salt"⟩, ⟨"r2", "200 g salt"⟩]).sources =
      [("salt", ["r1", "r2"])] ∧
    aggregate_ingredients [("salt", (some 1, some "tsp")), ("salt", (some 200, some "g"))] =
      [("salt", (some 1, some "tsp")), ("salt (tsp)", (some 1, some "tsp")),
        ("salt (g)", (some 200, some "g"))] ∧
    (201 : ℚ) ≠ 1 := by
  with_unfolding_all decide

/-- C4: the claim says a convertible different-unit merge converts through
milliliters, e.g. 1 cup + 8 tbsp sugar = 1.5 cup.  The shopping_list view
never consults CONVERSIONS and adds the raw numbers: (9, "cup").  The
imported-but-never-called `aggregate_ingredients` implements exactly the
claimed conversion (its convertible branch yields 3/2 cup on the same
entries). -/
theorem claim_C4_convertible_merge_not_converted :
    (shopping_list [⟨"r1", "1 cup sugar"⟩, ⟨"r2", "8 tbsp sugar"⟩]).dict =
      [("sugar", (some 9, "cup"))] ∧
    aggregate_ingredients [("sugar", (some 1, some "cup")), ("sugar", (some 8, some "tbsp"))] =
      [("sugar", (some (3/2), some "cup"))] ∧
    (9 : ℚ) ≠ 3 / 2 := by
  with_unfolding_all decide

/-- C7 counterexample: the claim says every negative-number input yields
None; in fact the final `float(...)` branch accepts negative literals and
`parse_quantity` returns their (negative) numeric value. -/
theorem claim_C7_negative_numbers_parse :
    parse_quantity "-2" = PyParse.value (-2) ∧
    parse_quantity "-1.5" = PyParse.value (-(3/2)) := by
  with_unfolding_all decide

/-- C8 counterexample: the claim's example `format_quantity 1.5 "tbsp" =
"1 1/2 tbsp"` contradicts its own pluralization rule; the code follows the
rule ("tbsp" does not end in 's' and 1.5 > 1) and produces "1 1/2 tbsps". -/
theorem claim_C8_tbsp_example_pluralizes :
    format_quantity (some (3/2)) (some "tbsp") = "1 1/2 tbsps" ∧
    "1 1/2 tbsps" ≠ "1 1/2 tbsp" := by
  with_unfolding_all decide

/-- C9 counterexample: -3/2 has denominator 2 ≤ 8, but formatting it gives
"-3/2", which neither fraction regex (digits only) nor `float` accepts, so
re-parsing returns None rather than a value near the original. -/
theorem claim_C9_negative_roundtrip_fails :
    (-(3/2) : ℚ).den ≤ 8 ∧
    format_quantity (some (-(3/2))) none = "-3/2" ∧
    parse_quantity "-3/2" = PyParse.noneVal := by
  with_unfolding_all decide

/-! ### Dict lemmas -/

theorem dictGet?_append (k : String) (l₁ l₂ : List (String × α)) :
    dictGet? k (l₁ ++ l₂) =
      match dictGet? k l₁ with
      | some v => some v
      | none => dictGet? k l₂ := by
  induction l₁ with
  | nil => simp [dictGet?]
  | cons p t ih =>
    obtain ⟨k', v'⟩ := p
    by_cases h : k' = k
    · simp [dictGet?, h]
    · simp [dictGet?, h, ih]

theorem dictSet_of_get_none (k : String) (v : α) (l : List (String × α))
    (h : dictGet? k l = none) : dictSet k v l = l ++ [(k, v)] := by
  induction l with
  | nil => rfl
  | cons p t ih =>
    obtain ⟨k', v'⟩ := p
    by_cases hk : k' = k
    · simp [dictGet?, hk] at h
    · simp only [dictGet?, if_neg hk] at h
      simp [dictSet, hk, ih h]

theorem dictGet?_dictSet_self (k : String) (v : α) (l : List (String × α)) :
    dictGet? k (dictSet k v l) = some v := by
  induction l with
  | nil => simp [dictSet, dictGet?]
  | cons p t ih =>
    obtain ⟨k', v'⟩ := p
    by_cases hk : k' = k
    · simp [dictSet, dictGet?, hk]
    · simp [dictSet, dictGet?, hk, ih]

theorem dictGet?_dictSet_ne (k k' : String) (v : α) (l : List (String × α))
    (h : k' ≠ k) : dictGet? k (dictSet k' v l) = dictGet? k l := by
  induction l with
  | nil => simp [dictSet, dictGet?, h]
  | cons p t ih =>
    obtain ⟨k'', v''⟩ := p
    by_cases hk : k'' = k'
    · simp [dictSet, dictGet?, hk, h]
    · by_cases hk2 : k'' = k
      · subst hk2
        simp [dictSet, dictGet?, hk]
      · simp [dictSet, dictGet?, hk, hk2, ih]

/-! ### C5: aggregate_ingredients is the identity on dict inputs -/

theorem aggStep_fresh (acc : List (String × Option ℚ × Option String))
    (p : String × Option ℚ × Option String) (h : dictGet? p.1 acc = none) :
    aggStep acc p = acc ++ [p] := by
  obtain ⟨k, v⟩ := p
  simp only [aggStep, h, dictSet_of_get_none k v acc h]

theorem foldl_aggStep_fresh (l : List (String × Option ℚ × Option String)) :
    ∀ acc, (∀ p ∈ l, dictGet? p.1 acc = none) → (l.map Prod.fst).Nodup →
      l.foldl aggStep acc = acc ++ l := by
  induction l with
  | nil => intro acc _ _; simp
  | cons p t ih =>
    intro acc hfresh hnd
    obtain ⟨k, v⟩ := p
    have hk : dictGet? k acc = none := hfresh (k, v) (by simp)
    have hstep : aggStep acc (k, v) = acc ++ [(k, v)] := aggStep_fresh acc (k, v) hk
    simp only [List.foldl_cons, hstep]
    have hnd' : (t.map Prod.fst).Nodup := by
      simp only [List.map_cons, List.nodup_cons] at hnd
      exact hnd.2
    have hknot : k ∉ t.map Prod.fst := by
      simp only [List.map_cons, List.nodup_cons] at hnd
      exact hnd.1
    have hfresh' : ∀ q ∈ t, dictGet? q.1 (acc ++ [(k, v)]) = none := by
      intro q hq
      rw [dictGet?_append]
      have h1 : dictGet? q.1 acc = none := hfresh q (by simp [hq])
      have h2 : k ≠ q.1 := by
        intro hkq
        exact hknot (hkq ▸ List.mem_map_of_mem Prod.fst hq)
      simp [h1, dictGet?, h2]
    rw [ih (acc ++ [(k, v)]) hfresh' hnd']
    simp

/-- C5: `aggregate_ingredients` takes a dict keyed by ingredient name, so no
name is ever seen twice, the three merge branches are unreachable, and the
function returns a mapping equal to its input. -/
theorem claim_C5_aggregate_ingredients_identity
    (ingredients : List (String × Option ℚ × Option String))
    (h : (ingredients.map Prod.fst).Nodup) :
    aggregate_ingredients ingredients = ingredients := by
  have := foldl_aggStep_fresh ingredients [] (by intro p _; rfl) h
  simpa [aggregate_ingredients] using this

/-- Witness for C5 at a concrete two-entry dict. -/
theorem claim_C5_aggregate_ingredients_identity_witness :
    (([("flour", (some 2, some "cup")), ("salt", (some 1, some "tsp"))] :
        List (String × Option ℚ × Option String)).map Prod.fst).Nodup ∧
      aggregate_ingredients
          [("flour", (some 2, some "cup")), ("salt", (some 1, some "tsp"))] =
        [("flour", (some 2, some "cup")), ("salt", (some 1, some "tsp"))] :=
  ⟨by with_unfolding_all decide,
    claim_C5_aggregate_ingredients_identity _ (by with_unfolding_all decide)⟩

/-! ### C6: each recipe is counted at most once per ingredient -/

theorem recordEntry_sources_nodup (title : String) (qty : Option ℚ)
    (unit ing_name : String) (st : ShopState)
    (h : ∀ n, ((dictGet? n st.sources).getD []).Nodup) :
    ∀ n, ((dictGet? n (recordEntry title qty unit ing_name st).sources).getD []).Nodup := by
  intro n
  unfold recordEntry
  by_cases he : ing_name = ""
  · simpa [he] using h n
  · simp only [if_neg he]
    by_cases hn : ing_name = n
    · subst hn
      rw [dictGet?_dictSet_self]
      simp only [Option.getD_some]
      by_cases hm : title ∈ (dictGet? ing_name st.sources).getD []
      · simpa [hm] using h ing_name
      · simp only [if_neg hm]
        refine (h ing_name).append (List.nodup_singleton title) ?_
        intro x hx hx'
        simp only [List.mem_singleton] at hx'
        exact hm (hx' ▸ hx)
    · rw [dictGet?_dictSet_ne _ _ _ _ hn]
      exact h n

theorem processItem_sources_nodup (title : String) (st : ShopState)
    (item : List Char) (h : ∀ n, ((dictGet? n st.sources).getD []).Nodup) :
    ∀ n, ((dictGet? n (processItem title st item).sources).getD []).Nodup := by
  unfold processItem
  by_cases hit : pyStrip item = []
  · simpa [hit] using h
  · simp only [if_neg hit]
    cases hv : viewsItemMatch (pyStrip item) with
    | none => simpa using h
    | some g =>
      obtain ⟨g1, g2, g3, g4⟩ := g
      exact recordEntry_sources_nodup _ _ _ _ _ h

theorem foldl_processItem_sources_nodup (title : String) (items : List (List Char)) :
    ∀ st : ShopState, (∀ n, ((dictGet? n st.sources).getD []).Nodup) →
      ∀ n, ((dictGet? n (items.foldl (processItem title) st).sources).getD []).Nodup := by
  induction items with
  | nil => intro st h; simpa using h
  | cons it t ih =>
    intro st h
    exact ih (processItem title st it) (processItem_sources_nodup title st it h)

theorem foldl_processRecipe_sources_nodup (rs : List Recipe) :
    ∀ st : ShopState, (∀ n, ((dictGet? n st.sources).getD []).Nodup) →
      ∀ n, ((dictGet? n (rs.foldl processRecipe st).sources).getD []).Nodup := by
  induction rs with
  | nil => intro st h; simpa using h
  | cons r t ih =>
    intro st h
    exact ih (processRecipe st r)
      (foldl_processItem_sources_nodup r.title (splitCommas r.ingredients.data) st h)

/-- C6: in the shopping_list view, a recipe title is appended to an
ingredient's contributor list only if not already recorded, so every
contributor list is duplicate-free and each recipe is counted at most once
per ingredient - even when one recipe lists the same ingredient twice, as
in the concrete second part. -/
theorem claim_C6_recipe_counted_once :
    (∀ (rs : List Recipe) (name : String),
      ((dictGet? name (shopping_list rs).sources).getD []).Nodup) ∧
    recipeCount (shopping_list [⟨"r1", "1 tsp salt, 2 tsp salt"⟩]) "salt" = 1 := by
  constructor
  · intro rs name
    exact foldl_processRecipe_sources_nodup rs { dict := [], sources := [] }
      (by intro n; simp [dictGet?]) name
  · with_unfolding_all decide

/-! ### List lemmas about character runs -/

theorem mem_takeWhileC {p : Char → Bool} {l : List Char} {c : Char}
    (h : c ∈ l.takeWhile p) : p c = true := by
  induction l with
  | nil => simp [List.takeWhile] at h
  | cons a t ih =>
    by_cases ha : p a
    · rw [List.takeWhile_cons_of_pos ha] at h
      rcases List.mem_cons.mp h with h1 | h2
      · exact h1 ▸ ha
      · exact ih h2
    · rw [List.takeWhile_cons_of_neg ha] at h
      simp at h

theorem count_zero_of_pred {p : Char → Bool} {l : List Char} {c : Char}
    (hc : p c = false) (hl : ∀ x ∈ l, p x = true) : l.count c = 0 := by
  rw [List.count_eq_zero]
  intro hmem
  rw [hl c hmem] at hc
  exact Bool.noConfusion hc

theorem count_dropWhile_eq {c : Char} (hc : isWSC c = false) (l : List Char) :
    (l.dropWhile isWSC).count c = l.count c := by
  induction l with
  | nil => rfl
  | cons a t ih =>
    by_cases ha : isWSC a
    · rw [List.dropWhile_cons_of_pos ha, ih]
      have hac : a ≠ c := by intro he; rw [he, hc] at ha; exact Bool.noConfusion ha
      simp [List.count_cons, hac]
    · rw [List.dropWhile_cons_of_neg ha]

theorem count_pyStrip_eq {c : Char} (hc : isWSC c = false) (l : List Char) :
    (pyStrip l).count c = l.count c := by
  unfold pyStrip
  rw [List.count_reverse, count_dropWhile_eq hc, List.count_reverse,
    count_dropWhile_eq hc]

/-! ### C7: multiple fractions give None, negative numbers do not -/

theorem mixedMatch_count_slash (t : List Char) (v : Nat × Nat × Nat)
    (h : mixedMatch t = some v) : t.count '/' = 1 := by
  simp only [mixedMatch] at h
  split at h
  · exact absurd h (by simp)
  · split at h
    · exact absurd h (by simp)
    · split at h
      · exact absurd h (by simp)
      · rename_i hd1 hw hd2
        split at h
        · exact absurd h (by simp)
        · rename_i c r4 heq
          split at h
          · rename_i hc
            split at h
            · exact absurd h (by simp)
            · split at h
              · rename_i hd3 hr5
                subst hc
                have e1 : t = t.takeWhile isDigitC ++ t.dropWhile isDigitC :=
                  (List.takeWhile_append_dropWhile isDigitC t).symm
                have e2 : t.dropWhile isDigitC =
                    (t.dropWhile isDigitC).takeWhile isWSC ++
                      (t.dropWhile isDigitC).dropWhile isWSC :=
                  (List.takeWhile_append_dropWhile isWSC (t.dropWhile isDigitC)).symm
                have e3 : (t.dropWhile isDigitC).dropWhile isWSC =
                    ((t.dropWhile isDigitC).dropWhile isWSC).takeWhile isDigitC ++
                      '/' :: r4 := by
                  conv_lhs => rw [← List.takeWhile_append_dropWhile isDigitC
                    ((t.dropWhile isDigitC).dropWhile isWSC)]
                  rw [heq]
                have e4 : r4 = r4.takeWhile isDigitC := by
                  conv_lhs => rw [← List.takeWhile_append_dropWhile isDigitC r4]
                  rw [hr5, List.append_nil]
                have c1 : (t.takeWhile isDigitC).count '/' = 0 :=
                  count_zero_of_pred (by decide) (fun x hx => mem_takeWhileC hx)
                have c2 : ((t.dropWhile isDigitC).takeWhile isWSC).count '/' = 0 :=
                  count_zero_of_pred (by decide) (fun x hx => mem_takeWhileC hx)
                have c3 : (((t.dropWhile isDigitC).dropWhile isWSC).takeWhile
                    isDigitC).count '/' = 0 :=
                  count_zero_of_pred (by decide) (fun x hx => mem_takeWhileC hx)
                have c4 : r4.count '/' = 0 := by
                  rw [e4]
                  exact count_zero_of_pred (by decide) (fun x hx => mem_takeWhileC hx)
                calc t.count '/'
                    = (t.takeWhile isDigitC).count '/' +
                        (t.dropWhile isDigitC).count '/' := by
                      conv_lhs => rw [e1]
                      rw [List.count_append]
                  _ = 1 := by
                      rw [e2, List.count_append, e3, List.count_append]
                      simp [List.count_cons, c1, c2, c3, c4]
              · exact absurd h (by simp)
          · exact absurd h (by simp)

theorem simpleMatch_count_slash (t : List Char) (v : Nat × Nat)
    (h : simpleMatch t = some v) : t.count '/' = 1 := by
  simp only [simpleMatch] at h
  split at h
  · exact absurd h (by simp)
  · split at h
    · exact absurd h (by simp)
    · rename_i hd1 c r2 heq
      split at h
      · rename_i hc
        split at h
        · exact absurd h (by simp)
        · split at h
          · rename_i hd2 hr3
            subst hc
            have e1 : t = t.takeWhile isDigitC ++ '/' :: r2 := by
              conv_lhs => rw [← List.takeWhile_append_dropWhile isDigitC t]
              rw [heq]
            have e2 : r2 = r2.takeWhile isDigitC := by
              conv_lhs => rw [← List.takeWhile_append_dropWhile isDigitC r2]
              rw [hr3, List.append_nil]
            have c1 : (t.takeWhile isDigitC).count '/' = 0 :=
              count_zero_of_pred (by decide) (fun x hx => mem_takeWhileC hx)
            have c2 : r2.count '/' = 0 := by
              rw [e2]
              exact count_zero_of_pred (by decide) (fun x hx => mem_takeWhileC hx)
            conv_lhs => rw [e1]
            rw [List.count_append]
            simp [List.count_cons, c1, c2]
          · exact absurd h (by simp)
      · exact absurd h (by simp)

theorem pyFloatExpDigits_no_slash (v : ℚ) (neg : Bool) (r : List Char) (w : ℚ)
    (h : pyFloatExpDigits v neg r = some w) : '/' ∉ r := by
  simp only [pyFloatExpDigits] at h
  split at h
  · exact absurd h (by simp)
  · split at h
    · rename_i hds hrest
      intro hmem
      have hr : r = r.takeWhile isDigitC := by
        conv_lhs => rw [← List.takeWhile_append_dropWhile isDigitC r]
        rw [hrest, List.append_nil]
      rw [hr] at hmem
      have := mem_takeWhileC hmem
      exact absurd this (by decide)
    · exact absurd h (by simp)

theorem pyFloatExpSigned_no_slash (v : ℚ) (r : List Char) (w : ℚ)
    (h : pyFloatExpSigned v r = some w) : '/' ∉ r := by
  match r with
  | [] => simp
  | c :: r2 =>
    simp only [pyFloatExpSigned] at h
    by_cases hp : c = '+'
    · rw [if_pos hp] at h
      have := pyFloatExpDigits_no_slash _ _ _ _ h
      simp [hp, this]
    · rw [if_neg hp] at h
      by_cases hm : c = '-'
      · rw [if_pos hm] at h
        have := pyFloatExpDigits_no_slash _ _ _ _ h
        simp [hm, this]
      · rw [if_neg hm] at h
        exact pyFloatExpDigits_no_slash _ _ _ _ h

theorem pyFloatExp_no_slash (v : ℚ) (r : List Char) (w : ℚ)
    (h : pyFloatExp v r = some w) : '/' ∉ r := by
  match r with
  | [] => simp
  | c :: r2 =>
    simp only [pyFloatExp] at h
    split at h
    · rename_i hce
      have h2 := pyFloatExpSigned_no_slash _ _ _ h
      have hc : c ≠ '/' := by
        rcases Bool.or_eq_true_iff.mp hce with h3 | h3
        · intro he; rw [he] at h3; exact absurd (of_decide_eq_true h3) (by decide)
        · intro he; rw [he] at h3; exact absurd (of_decide_eq_true h3) (by decide)
      simp [hc.symm, h2]
    · exact absurd h (by simp)

theorem pyFloatBody_no_slash (r : List Char) (w : ℚ)
    (h : pyFloatBody r = some w) : '/' ∉ r := by
  have hsplit : r = r.takeWhile isDigitC ++ r.dropWhile isDigitC :=
    (List.takeWhile_append_dropWhile isDigitC r).symm
  have hd1 : '/' ∉ r.takeWhile isDigitC := by
    intro hmem
    exact absurd (mem_takeWhileC hmem) (by decide)
  simp only [pyFloatBody] at h
  split at h
  · rename_i hr1
    split at h
    · exact absurd h (by simp)
    · rw [hsplit, hr1, List.append_nil]
      exact hd1
  · rename_i c r2 hr1
    by_cases hc : c = '.'
    · rw [if_pos hc] at h
      split at h
      · exact absurd h (by simp)
      · have h3 := pyFloatExp_no_slash _ _ _ h
        have hd2 : '/' ∉ r2.takeWhile isDigitC := by
          intro hmem
          exact absurd (mem_takeWhileC hmem) (by decide)
        have hr2 : r2 = r2.takeWhile isDigitC ++ r2.dropWhile isDigitC :=
          (List.takeWhile_append_dropWhile isDigitC r2).symm
        rw [hsplit, hr1, hc]
        intro hmem
        rcases List.mem_append.mp hmem with h4 | h4
        · exact hd1 h4
        · rcases List.mem_cons.mp h4 with h5 | h5
          · exact absurd h5 (by decide)
          · rw [hr2] at h5
            rcases List.mem_append.mp h5 with h6 | h6
            · exact hd2 h6
            · exact h3 h6
    · rw [if_neg hc] at h
      split at h
      · exact absurd h (by simp)
      · have h3 := pyFloatExp_no_slash _ _ _ h
        rw [hr1] at h3
        rw [hsplit, hr1]
        intro hmem
        rcases List.mem_append.mp hmem with h4 | h4
        · exact hd1 h4
        · exact h3 h4

theorem pyFloatSigned_no_slash (r : List Char) (w : ℚ)
    (h : pyFloatSigned r = some w) : '/' ∉ r := by
  match r with
  | [] => simp
  | c :: r2 =>
    simp only [pyFloatSigned] at h
    by_cases hp : c = '+'
    · rw [if_pos hp] at h
      have := pyFloatBody_no_slash _ _ h
      simp [hp, this]
    · rw [if_neg hp] at h
      by_cases hm : c = '-'
      · rw [if_pos hm] at h
        rcases Option.map_eq_some'.mp h with ⟨w2, hw2, _⟩
        have := pyFloatBody_no_slash _ _ hw2
        simp [hm, this]
      · rw [if_neg hm] at h
        exact pyFloatBody_no_slash _ _ h

theorem pyFloat_count_slash (l : List Char) (v : ℚ) (h : pyFloat l = some v) :
    l.count '/' = 0 := by
  simp only [pyFloat] at h
  split at h
  · exact absurd h (by simp)
  · have h2 := pyFloatSigned_no_slash _ _ h
    have h3 : (pyStrip l).count '/' = 0 := List.count_eq_zero.mpr h2
    rw [← count_pyStrip_eq (by decide) l]
    exact h3

/-- For every input whose slash count is at least two (multiple fractions),
`parse_quantity` returns None: each fraction regex forces exactly one slash
and `float` accepts none. -/
theorem parse_quantity_multi_slash (s : String) (h : 2 ≤ s.data.count '/') :
    parse_quantity s = PyParse.noneVal := by
  have hts : (pyStrip s.data).count '/' = s.data.count '/' :=
    count_pyStrip_eq (by decide) s.data
  have ht2 : 2 ≤ (pyStrip s.data).count '/' := by rw [hts]; exact h
  have htne : ¬(pyStrip s.data = []) := by
    intro he
    rw [he] at ht2
    simp at ht2
  have hmix : mixedMatch (pyStrip s.data) = none := by
    cases hv : mixedMatch (pyStrip s.data) with
    | none => rfl
    | some v =>
      have := mixedMatch_count_slash _ v hv
      omega
  have hsim : simpleMatch (pyStrip s.data) = none := by
    cases hv : simpleMatch (pyStrip s.data) with
    | none => rfl
    | some v =>
      have := simpleMatch_count_slash _ v hv
      omega
  have hfl : pyFloat (pyStrip s.data) = none := by
    cases hv : pyFloat (pyStrip s.data) with
    | none => rfl
    | some v =>
      have := pyFloat_count_slash _ v hv
      omega
  simp only [parse_quantity, if_neg htne, hmix, hsim, hfl]

/-- C7 (amended): inputs with multiple fractions and malformed words yield
None, but negative number literals are accepted by the float branch and
return their negative numeric value. -/
theorem claim_C7_amended_unparseable_forms :
    (∀ s : String, 2 ≤ s.data.count '/' → parse_quantity s = PyParse.noneVal) ∧
    parse_quantity "abc" = PyParse.noneVal ∧
    parse_quantity "1/2/3" = PyParse.noneVal ∧
    parse_quantity "-2" = PyParse.value (-2) ∧
    parse_quantity "-1.5" = PyParse.value (-(3/2)) := by
  refine ⟨parse_quantity_multi_slash, ?_, ?_, ?_, ?_⟩
  · with_unfolding_all decide
  · with_unfolding_all decide
  · with_unfolding_all decide
  · with_unfolding_all decide

/-- Witness for the universally quantified part of the amended C7 at the
concrete input "1 1/2/3". -/
theorem claim_C7_amended_witness :
    2 ≤ ("1 1/2/3" : String).data.count '/' ∧
      parse_quantity "1 1/2/3" = PyParse.noneVal :=
  ⟨by with_unfolding_all decide,
    claim_C7_amended_unparseable_forms.1 "1 1/2/3" (by with_unfolding_all decide)⟩

/-! ### Decimal rendering lemmas (for the round-trip claim) -/

theorem digitChar_isDigit (k : Nat) (h : k < 10) :
    isDigitC (Nat.digitChar k) = true := by
  interval_cases k <;> decide

theorem digitChar_val (k : Nat) (h : k < 10) : digitVal (Nat.digitChar k) = k := by
  interval_cases k <;> decide

theorem valOf_append_digit (ds : List Char) (c : Char) :
    valOf (ds ++ [c]) = 10 * valOf ds + digitVal c := by
  simp [valOf, List.foldl_append]

theorem valOf_single (c : Char) : valOf [c] = digitVal c := by
  simp [valOf]

theorem pyStrNatAux_spec :
    ∀ (fuel n : Nat), n ≤ fuel → ∀ acc : List Char,
      ∃ ds : List Char, pyStrNatAux fuel n acc = ds ++ acc ∧ ds ≠ [] ∧
        (∀ c ∈ ds, isDigitC c = true) ∧ valOf ds = n := by
  intro fuel
  induction fuel with
  | zero =>
    intro n hn acc
    have hn0 : n = 0 := Nat.le_zero.mp hn
    subst hn0
    refine ⟨[Nat.digitChar 0], rfl, by simp, ?_, by decide⟩
    intro c hc
    simp at hc
    subst hc
    decide
  | succ f ih =>
    intro n hn acc
    by_cases h10 : n < 10
    · refine ⟨[Nat.digitChar n], ?_, by simp, ?_, ?_⟩
      · simp [pyStrNatAux, h10]
      · intro c hc
        simp at hc
        subst hc
        exact digitChar_isDigit n h10
      · rw [valOf_single, digitChar_val n h10]
    · have hpos : 0 < n := by omega
      have hdiv : n / 10 ≤ f := by
        have := Nat.div_lt_self hpos (by omega : 1 < 10)
        omega
      obtain ⟨ds, hds, hne, hdig, hval⟩ := ih (n / 10) hdiv (Nat.digitChar (n % 10) :: acc)
      refine ⟨ds ++ [Nat.digitChar (n % 10)], ?_, by simp, ?_, ?_⟩
      · rw [pyStrNatAux, if_neg h10, hds, List.append_assoc]
        rfl
      · intro c hc
        rcases List.mem_append.mp hc with h1 | h1
        · exact hdig c h1
        · simp at h1
          subst h1
          exact digitChar_isDigit _ (Nat.mod_lt n (by omega))
      · rw [valOf_append_digit, hval, digitChar_val _ (Nat.mod_lt n (by omega))]
        omega

theorem pyStrNatL_spec (n : Nat) :
    pyStrNatL n ≠ [] ∧ (∀ c ∈ pyStrNatL n, isDigitC c = true) ∧
      valOf (pyStrNatL n) = n := by
  obtain ⟨ds, hds, hne, hdig, hval⟩ := pyStrNatAux_spec n n le_rfl []
  rw [List.append_nil] at hds
  rw [pyStrNatL, hds]
  exact ⟨hne, hdig, hval⟩

theorem not_ws_of_digit {c : Char} (h : isDigitC c = true) : isWSC c = false := by
  cases hws : isWSC c with
  | false => rfl
  | true =>
    exfalso
    simp only [isWSC, Bool.or_eq_true, decide_eq_true_eq] at hws
    rcases hws with ((((h1 | h1) | h1) | h1) | h1) | h1 <;>
      (subst h1; exact absurd h (by decide))

/-! ### Strip and run lemmas over structured strings -/

theorem dropWhile_eq_self_of_head {p : Char → Bool} {l : List Char}
    (h : ∀ c, l.head? = some c → p c = false) : l.dropWhile p = l := by
  cases l with
  | nil => rfl
  | cons a t =>
    apply List.dropWhile_cons_of_neg
    rw [h a rfl]
    exact Bool.false_ne_true

theorem pyStrip_eq_self {l : List Char}
    (h1 : ∀ c, l.head? = some c → isWSC c = false)
    (h2 : ∀ c, l.getLast? = some c → isWSC c = false) : pyStrip l = l := by
  unfold pyStrip
  rw [dropWhile_eq_self_of_head h1]
  rw [dropWhile_eq_self_of_head (fun c hc => h2 c (by rwa [List.head?_reverse] at hc))]
  exact List.reverse_reverse l

theorem pyStrip_append_space {l : List Char} (hne : l ≠ [])
    (h1 : ∀ c, l.head? = some c → isWSC c = false)
    (h2 : ∀ c, l.getLast? = some c → isWSC c = false) :
    pyStrip (l ++ [' ']) = l := by
  unfold pyStrip
  have e1 : (l ++ [' ']).dropWhile isWSC = l ++ [' '] := by
    apply dropWhile_eq_self_of_head
    intro c hc
    cases l with
    | nil => exact absurd rfl hne
    | cons a t =>
      simp only [List.cons_append, List.head?_cons, Option.some.injEq] at hc
      exact hc ▸ h1 a rfl
  rw [e1, List.reverse_append]
  simp only [List.reverse_cons, List.reverse_nil, List.nil_append, List.singleton_append]
  rw [List.dropWhile_cons_of_pos (by decide)]
  rw [dropWhile_eq_self_of_head (fun c hc => h2 c (by rwa [List.head?_reverse] at hc))]
  exact List.reverse_reverse l

theorem takeWhile_all_eq {p : Char → Bool} {l : List Char}
    (h : ∀ c ∈ l, p c = true) : l.takeWhile p = l ∧ l.dropWhile p = [] := by
  induction l with
  | nil => exact ⟨rfl, rfl⟩
  | cons a t ih =>
    have ha : p a = true := h a (by simp)
    obtain ⟨ht, hd⟩ := ih (fun c hc => h c (by simp [hc]))
    exact ⟨by rw [List.takeWhile_cons_of_pos ha, ht],
      by rw [List.dropWhile_cons_of_pos ha, hd]⟩

theorem takeWhile_append_stop {p : Char → Bool} {l1 l2 : List Char} {c : Char}
    (h1 : ∀ x ∈ l1, p x = true) (hc : p c = false) :
    (l1 ++ c :: l2).takeWhile p = l1 ∧ (l1 ++ c :: l2).dropWhile p = c :: l2 := by
  induction l1 with
  | nil =>
    constructor
    · simp only [List.nil_append]
      apply List.takeWhile_cons_of_neg
      rw [hc]
      exact Bool.false_ne_true
    · simp only [List.nil_append]
      apply List.dropWhile_cons_of_neg
      rw [hc]
      exact Bool.false_ne_true
  | cons a t ih =>
    have ha : p a = true := h1 a (by simp)
    obtain ⟨ht, hd⟩ := ih (fun x hx => h1 x (by simp [hx]))
    constructor
    · rw [List.cons_append, List.takeWhile_cons_of_pos ha, ht]
    · rw [List.cons_append, List.dropWhile_cons_of_pos ha, hd]

theorem head?_mem {α : Type _} {l : List α} {c : α} (h : l.head? = some c) :
    c ∈ l := by
  cases l with
  | nil => simp at h
  | cons a t =>
    simp only [List.head?_cons, Option.some.injEq] at h
    simp [h.symm]

theorem getLast?_mem {α : Type _} {l : List α} {c : α} (h : l.getLast? = some c) :
    c ∈ l := by
  rw [← List.head?_reverse] at h
  exact List.mem_reverse.mp (head?_mem h)

theorem head?_append_left {α : Type _} {l1 l2 : List α} (h : l1 ≠ []) :
    (l1 ++ l2).head? = l1.head? := by
  cases l1 with
  | nil => exact absurd rfl h
  | cons a t => simp

theorem getLast?_append_right {α : Type _} {l1 l2 : List α} (h : l2 ≠ []) :
    (l1 ++ l2).getLast? = l2.getLast? := by
  rw [← List.head?_reverse, ← List.head?_reverse, List.reverse_append]
  exact head?_append_left (by simpa using h)

/-! ### Evaluation of parse_quantity on rendered quantity strings -/

theorem pyFloat_digits (ds : List Char) (hne : ds ≠ [])
    (hd : ∀ c ∈ ds, isDigitC c = true) : pyFloat ds = some ((valOf ds : ℚ)) := by
  obtain ⟨htake, hdrop⟩ := takeWhile_all_eq hd
  have hstrip : pyStrip ds = ds :=
    pyStrip_eq_self (fun c hc => not_ws_of_digit (hd c (head?_mem hc)))
      (fun c hc => not_ws_of_digit (hd c (getLast?_mem hc)))
  have hbody : pyFloatBody ds = some ((valOf ds : ℚ)) := by
    simp only [pyFloatBody, hdrop, htake]
    rw [if_neg hne]
  cases ds with
  | nil => exact absurd rfl hne
  | cons c t =>
    have hc : isDigitC c = true := hd c (by simp)
    have hp : c ≠ '+' := by intro he; rw [he] at hc; exact absurd hc (by decide)
    have hm : c ≠ '-' := by intro he; rw [he] at hc; exact absurd hc (by decide)
    simp only [pyFloat, hstrip, if_neg hne]
    simp only [pyFloatSigned, if_neg hp, if_neg hm]
    exact hbody

theorem mixedMatch_digits_none (ds : List Char) (hne : ds ≠ [])
    (hd : ∀ c ∈ ds, isDigitC c = true) : mixedMatch ds = none := by
  obtain ⟨htake, hdrop⟩ := takeWhile_all_eq hd
  simp only [mixedMatch, hdrop, htake]
  simp [hne]

theorem simpleMatch_digits_none (ds : List Char) (hne : ds ≠ [])
    (hd : ∀ c ∈ ds, isDigitC c = true) : simpleMatch ds = none := by
  obtain ⟨htake, hdrop⟩ := takeWhile_all_eq hd
  simp only [simpleMatch, hdrop, htake]
  simp [hne]

theorem parse_quantity_digits (ds : List Char) (hne : ds ≠ [])
    (hd : ∀ c ∈ ds, isDigitC c = true) :
    parse_quantity (String.mk ds) = PyParse.value ((valOf ds : ℚ)) := by
  have hstrip : pyStrip ds = ds :=
    pyStrip_eq_self (fun c hc => not_ws_of_digit (hd c (head?_mem hc)))
      (fun c hc => not_ws_of_digit (hd c (getLast?_mem hc)))
  have hdata : (String.mk ds).data = ds := rfl
  simp only [parse_quantity, hdata, hstrip, if_neg hne,
    mixedMatch_digits_none ds hne hd, simpleMatch_digits_none ds hne hd,
    pyFloat_digits ds hne hd]

theorem parse_quantity_fraction (N D : List Char) (hN : N ≠ []) (hD : D ≠ [])
    (hdN : ∀ c ∈ N, isDigitC c = true) (hdD : ∀ c ∈ D, isDigitC c = true)
    (hDz : valOf D ≠ 0) :
    parse_quantity (String.mk (N ++ '/' :: D)) =
      PyParse.value ((valOf N : ℚ) / (valOf D : ℚ)) := by
  have hfull : N ++ '/' :: D ≠ [] := by simp [hN]
  have hhead : ∀ c, (N ++ '/' :: D).head? = some c → isWSC c = false := by
    intro c hc
    rw [head?_append_left hN] at hc
    exact not_ws_of_digit (hdN c (head?_mem hc))
  have hlast : ∀ c, (N ++ '/' :: D).getLast? = some c → isWSC c = false := by
    intro c hc
    rw [getLast?_append_right (by simp : ('/' :: D : List Char) ≠ [])] at hc
    have hc2 : ('/' :: D : List Char).getLast? = D.getLast? := by
      have : ('/' :: D : List Char) = ['/'] ++ D := rfl
      rw [this, getLast?_append_right hD]
    rw [hc2] at hc
    exact not_ws_of_digit (hdD c (getLast?_mem hc))
  have hstrip : pyStrip (N ++ '/' :: D) = N ++ '/' :: D :=
    pyStrip_eq_self hhead hlast
  obtain ⟨htakeN, hdropN⟩ := @takeWhile_append_stop isDigitC N D '/' hdN
    (by decide : isDigitC '/' = false)
  obtain ⟨htakeD, hdropD⟩ := takeWhile_all_eq hdD
  have hmix : mixedMatch (N ++ '/' :: D) = none := by
    simp only [mixedMatch, htakeN, hdropN]
    rw [if_neg hN]
    rw [List.takeWhile_cons_of_neg (by decide : ¬isWSC '/' = true)]
    simp
  have hsim : simpleMatch (N ++ '/' :: D) = some (valOf N, valOf D) := by
    simp only [simpleMatch, htakeN, hdropN]
    rw [if_neg hN]
    simp only [htakeD, hdropD]
    simp [hD]
  have hdata : (String.mk (N ++ '/' :: D)).data = N ++ '/' :: D := rfl
  simp only [parse_quantity, hdata, hstrip, if_neg hfull, hmix, hsim, if_neg hDz]

theorem parse_quantity_mixed (W R D : List Char) (hW : W ≠ []) (hR : R ≠ [])
    (hD : D ≠ []) (hdW : ∀ c ∈ W, isDigitC c = true)
    (hdR : ∀ c ∈ R, isDigitC c = true) (hdD : ∀ c ∈ D, isDigitC c = true)
    (hDz : valOf D ≠ 0) :
    parse_quantity (String.mk (W ++ ' ' :: (R ++ '/' :: D))) =
      PyParse.value ((valOf W : ℚ) + (valOf R : ℚ) / (valOf D : ℚ)) := by
  have hfull : W ++ ' ' :: (R ++ '/' :: D) ≠ [] := by simp [hW]
  have hCne : R ++ '/' :: D ≠ [] := by simp [hR]
  have hheadC : ∀ c, (R ++ '/' :: D).head? = some c → isDigitC c = true := by
    intro c hc
    rw [head?_append_left hR] at hc
    exact hdR c (head?_mem hc)
  have hhead : ∀ c, (W ++ ' ' :: (R ++ '/' :: D)).head? = some c → isWSC c = false := by
    intro c hc
    rw [head?_append_left hW] at hc
    exact not_ws_of_digit (hdW c (head?_mem hc))
  have hlast : ∀ c, (W ++ ' ' :: (R ++ '/' :: D)).getLast? = some c →
      isWSC c = false := by
    intro c hc
    rw [getLast?_append_right (by simp : (' ' :: (R ++ '/' :: D) : List Char) ≠ [])] at hc
    have h1 : (' ' :: (R ++ '/' :: D) : List Char) = [' '] ++ (R ++ '/' :: D) := rfl
    rw [h1, getLast?_append_right hCne, getLast?_append_right
      (by simp : ('/' :: D : List Char) ≠ [])] at hc
    have h2 : ('/' :: D : List Char) = ['/'] ++ D := rfl
    rw [h2, getLast?_append_right hD] at hc
    exact not_ws_of_digit (hdD c (getLast?_mem hc))
  have hstrip : pyStrip (W ++ ' ' :: (R ++ '/' :: D)) = W ++ ' ' :: (R ++ '/' :: D) :=
    pyStrip_eq_self hhead hlast
  obtain ⟨htakeW, hdropW⟩ := @takeWhile_append_stop isDigitC W (R ++ '/' :: D) ' ' hdW
    (by decide : isDigitC ' ' = false)
  obtain ⟨htakeR, hdropR⟩ := @takeWhile_append_stop isDigitC R D '/' hdR
    (by decide : isDigitC '/' = false)
  obtain ⟨htakeD, hdropD⟩ := takeWhile_all_eq hdD
  have hwsC : (R ++ '/' :: D).takeWhile isWSC = [] := by
    cases hR' : R with
    | nil => exact absurd hR' hR
    | cons r0 R' =>
      simp only [List.cons_append]
      apply List.takeWhile_cons_of_neg
      have : isDigitC r0 = true := hdR r0 (by simp [hR'])
      simp [not_ws_of_digit this]
  have hdropwsC : (R ++ '/' :: D).dropWhile isWSC = R ++ '/' :: D := by
    apply dropWhile_eq_self_of_head
    intro c hc
    exact not_ws_of_digit (hheadC c hc)
  have hmix : mixedMatch (W ++ ' ' :: (R ++ '/' :: D)) =
      some (valOf W, valOf R, valOf D) := by
    simp only [mixedMatch, htakeW, hdropW, if_neg hW,
      List.takeWhile_cons_of_pos (show isWSC ' ' = true by decide),
      List.dropWhile_cons_of_pos (show isWSC ' ' = true by decide),
      hwsC, hdropwsC, htakeR, hdropR, if_neg hR, htakeD, hdropD]
    simp [hD]
  have hdata : (String.mk (W ++ ' ' :: (R ++ '/' :: D))).data =
      W ++ ' ' :: (R ++ '/' :: D) := rfl
  simp only [parse_quantity, hdata, hstrip, if_neg hfull, hmix, if_neg hDz]

/-- C9 (amended): for every nonnegative quantity already expressible with
denominator at most 8, formatting the quantity part (no unit) and
re-parsing returns exactly the original value. -/
theorem claim_C9_roundtrip (q : ℚ) (h0 : 0 ≤ q) (h8 : q.den ≤ 8) :
    parse_quantity (format_quantity (some q) none) = PyParse.value q := by
  have hnum0 : 0 ≤ q.num := Rat.num_nonneg.mpr h0
  have hdenpos : 0 < q.den := q.den_pos
  have hfrac : limit_denominator q 8 = q := by
    simp only [limit_denominator, if_pos h8]
  have hfmt : format_quantity (some q) none =
      String.mk (pyStrip (qtyChars q ++ [' '])) := by
    simp only [format_quantity, hfrac]
    try rfl
  have hdencast : ((q.den : ℚ)) ≠ 0 := Nat.cast_ne_zero.mpr hdenpos.ne'
  by_cases hden : q.den = 1
  · -- integer branch: "n"
    have hq1 : qtyChars q = pyStrNatL q.num.toNat := by
      simp only [qtyChars, if_pos hden, pyStrIntL, if_neg (not_lt.mpr hnum0)]
    obtain ⟨hne, hdig, hval⟩ := pyStrNatL_spec q.num.toNat
    have hsp : pyStrip (pyStrNatL q.num.toNat ++ [' ']) = pyStrNatL q.num.toNat :=
      pyStrip_append_space hne
        (fun c hc => not_ws_of_digit (hdig c (head?_mem hc)))
        (fun c hc => not_ws_of_digit (hdig c (getLast?_mem hc)))
    rw [hfmt, hq1, hsp, parse_quantity_digits _ hne hdig, hval]
    congr 1
    have h1 : ((q.num.toNat : ℚ)) = ((q.num : ℚ)) := by
      have h2 : ((q.num.toNat : ℤ) : ℚ) = ((q.num : ℤ) : ℚ) := by
        rw [Int.toNat_of_nonneg hnum0]
      push_cast at h2
      exact h2
    rw [h1]
    conv_rhs => rw [← Rat.num_div_den q]
    rw [hden]
    simp
  · -- den ≥ 2: q is a genuine fraction, numerator positive
    have hnum1 : 0 < q.num := by
      rcases lt_or_eq_of_le hnum0 with h1 | h1
      · exact h1
      · exfalso
        have hq0 : q = 0 := Rat.num_eq_zero.mp h1.symm
        rw [hq0] at hden
        exact hden rfl
    obtain ⟨hDne, hDdig, hDval⟩ := pyStrNatL_spec q.den
    have hDz : valOf (pyStrNatL q.den) ≠ 0 := by
      rw [hDval]
      exact hdenpos.ne'
    by_cases hlt : (q.den : ℤ) < q.num
    · -- mixed branch: "w r/d"
      set whole := q.num.fdiv (q.den : ℤ) with hwhole
      set rem := q.num.fmod (q.den : ℤ) with hrem
      have hfd : whole = q.num / (q.den : ℤ) := by
        rw [hwhole, Int.fdiv_eq_ediv _ (by positivity)]
      have hfm : rem = q.num % (q.den : ℤ) := by
        rw [hrem, Int.fmod_eq_emod _ (by positivity)]
      have hrem0 : 0 ≤ rem := by
        rw [hfm]
        exact Int.emod_nonneg _ (by positivity)
      have hremlt : rem < (q.den : ℤ) := by
        rw [hfm]
        exact Int.emod_lt_of_pos _ (by positivity)
      have hremne : rem ≠ 0 := by
        intro hr0
        have hdvd : (q.den : ℤ) ∣ q.num := by
          apply Int.dvd_of_emod_eq_zero
          rw [← hfm]
          exact hr0
        have hdvd2 : q.den ∣ q.num.natAbs := by
          have := Int.natAbs_dvd_natAbs.mpr hdvd
          simpa using this
        have hcop : Nat.gcd q.num.natAbs q.den = 1 := q.reduced
        have : q.den ∣ 1 := hcop ▸ Nat.dvd_gcd hdvd2 dvd_rfl
        exact hden (Nat.dvd_one.mp this)
      have hwhole0 : 0 ≤ whole := by
        rw [hfd]
        exact Int.ediv_nonneg hnum0 (by positivity)
      have hqty : qtyChars q =
          pyStrNatL whole.toNat ++ ' ' ::
            (pyStrNatL rem.toNat ++ '/' :: pyStrNatL q.den) := by
        simp only [qtyChars, if_neg hden, if_pos hlt, if_pos hremne, pyStrIntL,
          if_neg (not_lt.mpr hwhole0), if_neg (not_lt.mpr hrem0)]
      obtain ⟨hWne, hWdig, hWval⟩ := pyStrNatL_spec whole.toNat
      obtain ⟨hRne, hRdig, hRval⟩ := pyStrNatL_spec rem.toNat
      have hchars : ∀ c ∈ pyStrNatL whole.toNat ++ ' ' ::
          (pyStrNatL rem.toNat ++ '/' :: pyStrNatL q.den), True := fun _ _ => trivial
      have hfullne : pyStrNatL whole.toNat ++ ' ' ::
          (pyStrNatL rem.toNat ++ '/' :: pyStrNatL q.den) ≠ [] := by
        simp [hWne]
      have hsp : pyStrip ((pyStrNatL whole.toNat ++ ' ' ::
          (pyStrNatL rem.toNat ++ '/' :: pyStrNatL q.den)) ++ [' ']) =
          pyStrNatL whole.toNat ++ ' ' ::
            (pyStrNatL rem.toNat ++ '/' :: pyStrNatL q.den) := by
        apply pyStrip_append_space hfullne
        · intro c hc
          rw [head?_append_left hWne] at hc
          exact not_ws_of_digit (hWdig c (head?_mem hc))
        · intro c hc
          rw [getLast?_append_right (by simp :
              (' ' :: (pyStrNatL rem.toNat ++ '/' :: pyStrNatL q.den) :
                List Char) ≠ [])] at hc
          have h1 : (' ' :: (pyStrNatL rem.toNat ++ '/' :: pyStrNatL q.den) :
              List Char) = [' '] ++ (pyStrNatL rem.toNat ++ '/' :: pyStrNatL q.den) := rfl
          rw [h1, getLast?_append_right (by simp [hRne]),
            getLast?_append_right (by simp : ('/' :: pyStrNatL q.den : List Char) ≠ [])] at hc
          have h2 : ('/' :: pyStrNatL q.den : List Char) = ['/'] ++ pyStrNatL q.den := rfl
          rw [h2, getLast?_append_right hDne] at hc
          exact not_ws_of_digit (hDdig c (getLast?_mem hc))
      rw [hfmt, hqty, hsp,
        parse_quantity_mixed _ _ _ hWne hRne hDne hWdig hRdig hDdig hDz,
        hWval, hRval, hDval]
      congr 1
      have hwc : ((whole.toNat : ℚ)) = ((whole : ℤ) : ℚ) := by
        have h2 : ((whole.toNat : ℤ) : ℚ) = ((whole : ℤ) : ℚ) := by
          rw [Int.toNat_of_nonneg hwhole0]
        push_cast at h2
        exact h2
      have hrc : ((rem.toNat : ℚ)) = ((rem : ℤ) : ℚ) := by
        have h2 : ((rem.toNat : ℤ) : ℚ) = ((rem : ℤ) : ℚ) := by
          rw [Int.toNat_of_nonneg hrem0]
        push_cast at h2
        exact h2
      rw [hwc, hrc]
      have hid : (q.den : ℤ) * whole + rem = q.num := by
        rw [hfd, hfm]
        exact Int.ediv_add_emod q.num (q.den : ℤ)
      have hidq : ((q.den : ℚ)) * ((whole : ℤ) : ℚ) + ((rem : ℤ) : ℚ) =
          ((q.num : ℤ) : ℚ) := by
        have := congrArg (fun z : ℤ => (z : ℚ)) hid
        push_cast at this
        exact this
      conv_rhs => rw [← Rat.num_div_den q]
      field_simp
      linarith [hidq]
    · -- plain fraction branch: "n/d"
      have hqty : qtyChars q = pyStrNatL q.num.toNat ++ '/' :: pyStrNatL q.den := by
        simp only [qtyChars, if_neg hden, if_neg hlt, pyStrIntL,
          if_neg (not_lt.mpr hnum0)]
      obtain ⟨hNne, hNdig, hNval⟩ := pyStrNatL_spec q.num.toNat
      have hfullne : pyStrNatL q.num.toNat ++ '/' :: pyStrNatL q.den ≠ [] := by
        simp [hNne]
      have hsp : pyStrip ((pyStrNatL q.num.toNat ++ '/' :: pyStrNatL q.den) ++ [' ']) =
          pyStrNatL q.num.toNat ++ '/' :: pyStrNatL q.den := by
        apply pyStrip_append_space hfullne
        · intro c hc
          rw [head?_append_left hNne] at hc
          exact not_ws_of_digit (hNdig c (head?_mem hc))
        · intro c hc
          rw [getLast?_append_right (by simp :
              ('/' :: pyStrNatL q.den : List Char) ≠ [])] at hc
          have h2 : ('/' :: pyStrNatL q.den : List Char) = ['/'] ++ pyStrNatL q.den := rfl
          rw [h2, getLast?_append_right hDne] at hc
          exact not_ws_of_digit (hDdig c (getLast?_mem hc))
      rw [hfmt, hqty, hsp,
        parse_quantity_fraction _ _ hNne hDne hNdig hDdig hDz, hNval, hDval]
      congr 1
      have hnc : ((q.num.toNat : ℚ)) = ((q.num : ℤ) : ℚ) := by
        have h2 : ((q.num.toNat : ℤ) : ℚ) = ((q.num : ℤ) : ℚ) := by
          rw [Int.toNat_of_nonneg hnum0]
        push_cast at h2
        exact h2
      rw [hnc]
      exact Rat.num_div_den q

/-- Witness for C9 at the concrete quantity 3/2 ("1 1/2"). -/
theorem claim_C9_roundtrip_witness :
    (0 : ℚ) ≤ 3/2 ∧ ((3/2 : ℚ)).den ≤ 8 ∧
      parse_quantity (format_quantity (some (3/2)) none) = PyParse.value (3/2) :=
  ⟨by with_unfolding_all decide, by with_unfolding_all decide,
    claim_C9_roundtrip (3/2) (by with_unfolding_all decide)
      (by with_unfolding_all decide)⟩

/-! ### Correctness of the limit_denominator loop (best approximation) -/

theorem lmStep_inv {n0 d0 : Int} {s : LMState} (hd0 : 8 < d0)
    (hcop : Int.gcd n0 d0 = 1) (h : LMInv n0 d0 s)
    (hcont : ¬(8 : Int) < s.q0 + (s.n.fdiv s.d) * s.q1) :
    LMInv n0 d0 (lmStep s) ∧ (lmStep s).d < s.d := by
  obtain ⟨hd, hI1, hI2, hdet, hq00, hq10, hq08, hq18, hV9⟩ := h
  set a := s.n.fdiv s.d with ha
  have hdne : s.d ≠ 0 := by omega
  have hdpos : (0:ℤ) < s.d := by omega
  have haed : a = s.n / s.d := Int.fdiv_eq_ediv s.n (by omega)
  have hmod : s.d * (s.n / s.d) + s.n % s.d = s.n := Int.ediv_add_emod s.n s.d
  have hr_eq : s.n - a * s.d = s.n % s.d := by rw [haed]; linarith
  have hr0 : 0 ≤ s.n - a * s.d := by rw [hr_eq]; exact Int.emod_nonneg s.n hdne
  have hrlt : s.n - a * s.d < s.d := by rw [hr_eq]; exact Int.emod_lt_of_pos s.n hdpos
  have hrne : s.n - a * s.d ≠ 0 := by
    intro hr
    have hnad : s.n = a * s.d := by linarith
    have hdn0 : s.d ∣ n0 := ⟨s.p1 * a + s.p0, by rw [← hI1, hnad]; ring⟩
    have hdd0 : s.d ∣ d0 := ⟨s.q1 * a + s.q0, by rw [← hI2, hnad]; ring⟩
    have hdgcd : s.d ∣ (Int.gcd n0 d0 : Int) := Int.dvd_gcd hdn0 hdd0
    rw [hcop] at hdgcd
    have hd1 : s.d = 1 := by
      have := Int.le_of_dvd (by norm_num) hdgcd
      omega
    have ha1 : a = s.n := by rw [haed, hd1, Int.ediv_one]
    have hbrk : d0 = s.q0 + a * s.q1 := by rw [← hI2, hd1, ha1]; ring
    rw [← hbrk] at hcont
    exact hcont hd0
  have hstep : lmStep s =
      { p0 := s.p1, q0 := s.q1, p1 := s.p0 + a * s.p1, q1 := s.q0 + a * s.q1,
        n := s.d, d := s.n - a * s.d } := rfl
  rw [hstep]
  refine ⟨⟨?_, ?_, ?_, ?_, ?_, ?_, ?_, ?_, ?_⟩, ?_⟩
  · show (1:ℤ) ≤ s.n - a * s.d
    omega
  · show (s.p0 + a * s.p1) * s.d + s.p1 * (s.n - a * s.d) = n0
    linear_combination hI1
  · show (s.q0 + a * s.q1) * s.d + s.q1 * (s.n - a * s.d) = d0
    linear_combination hI2
  · show (s.p0 + a * s.p1) * s.q1 - s.p1 * (s.q0 + a * s.q1) = 1 ∨
      (s.p0 + a * s.p1) * s.q1 - s.p1 * (s.q0 + a * s.q1) = -1
    rcases hdet with hdt | hdt
    · exact Or.inr (by linear_combination -hdt)
    · exact Or.inl (by linear_combination -hdt)
  · show (0:ℤ) ≤ s.q1
    exact hq10
  · show (0:ℤ) ≤ s.q0 + a * s.q1
    rcases (by omega : s.q1 = 0 ∨ 1 ≤ s.q1) with hq1 | hq1
    · rw [hq1]; omega
    · have han : s.d ≤ s.n := hV9 hq1
      have ha1' : 1 ≤ a := by
        rw [haed]
        exact (Int.le_ediv_iff_mul_le hdpos).mpr (by linarith)
      nlinarith
  · show s.q1 ≤ (8:ℤ)
    exact hq18
  · show s.q0 + a * s.q1 ≤ (8:ℤ)
    push_neg at hcont
    exact hcont
  · show 1 ≤ s.q0 + a * s.q1 → s.n - a * s.d ≤ s.d
    intro _
    linarith
  · show s.n - a * s.d < s.d
    exact hrlt

theorem lmLoop_spec {n0 d0 : Int} (hd0 : 8 < d0) (hcop : Int.gcd n0 d0 = 1) :
    ∀ (fuel : Nat) (s : LMState), LMInv n0 d0 s → s.d.toNat ≤ fuel →
      LMInv n0 d0 (lmLoop 8 fuel s) ∧ lmBreak 8 (lmLoop 8 fuel s) = true := by
  intro fuel
  induction fuel with
  | zero =>
    intro s hinv hf
    exfalso
    have hd : 1 ≤ s.d := hinv.1
    omega
  | succ f ih =>
    intro s hinv hf
    rw [lmLoop]
    cases hb : lmBreak 8 s with
    | true => rw [if_pos rfl]; exact ⟨hinv, hb⟩
    | false =>
      have hcont : ¬(8 : Int) < s.q0 + (s.n.fdiv s.d) * s.q1 := by
        have := hb
        simp only [lmBreak, decide_eq_false_iff_not] at this
        exact this
      rw [if_neg Bool.false_ne_true]
      obtain ⟨hinv', hdec⟩ := lmStep_inv hd0 hcop hinv hcont
      apply ih (lmStep s) hinv'
      have hd1 : 1 ≤ s.d := hinv.1
      have hd1' : 1 ≤ (lmStep s).d := hinv'.1
      omega

theorem lmFinal_spec (q : ℚ) (h8 : 8 < q.den) :
    LMInv q.num (q.den : Int) (lmFinal 8 q) ∧ lmBreak 8 (lmFinal 8 q) = true := by
  have hd0 : (8:ℤ) < (q.den : ℤ) := by exact_mod_cast h8
  have hcop : Int.gcd q.num (q.den : ℤ) = 1 := q.reduced
  have hinit : LMInv q.num (q.den : ℤ)
      { p0 := 0, q0 := 1, p1 := 1, q1 := 0, n := q.num, d := (q.den : Int) } := by
    unfold LMInv
    dsimp only
    refine ⟨by omega, by ring, by ring, Or.inl (by ring), by norm_num, by norm_num,
      by norm_num, by norm_num, ?_⟩
    intro h1
    exact absurd h1 (by norm_num)
  have hfin : lmFinal 8 q = lmLoop 8 (q.den + 1)
      { p0 := 0, q0 := 1, p1 := 1, q1 := 0, n := q.num, d := (q.den : Int) } := by
    simp [lmFinal]
  rw [hfin]
  exact lmLoop_spec hd0 hcop (q.den + 1) _ hinit (by simp)

/-- Two adjacent fractions (cross-determinant ±1) whose denominators sum to
more than 8 have no fraction with denominator at most 8 strictly between
them. -/
theorem no_fraction_between {u v P Q : Int} (hv : 1 ≤ v) (hQ : 1 ≤ Q)
    (hdet : u * Q - P * v = 1 ∨ u * Q - P * v = -1)
    (p : ℚ) (hp : p.den ≤ 8) (hvQ : (8:ℤ) < v + Q)
    (hlo : (P : ℚ) / (Q : ℚ) < p) (hhi : p < (u : ℚ) / (v : ℚ)) : False := by
  set pn := p.num with hpn
  set pd := (p.den : ℤ) with hpdd
  have hpd0 : (0:ℤ) < pd := by rw [hpdd]; exact_mod_cast p.den_pos
  have hpd8 : pd ≤ 8 := by rw [hpdd]; exact_mod_cast hp
  have hpeq : p = (pn : ℚ) / (pd : ℚ) := by
    rw [hpn, hpdd]
    push_cast
    exact (Rat.num_div_den p).symm
  have hQ0 : (0:ℚ) < (Q:ℚ) := by exact_mod_cast hQ.trans_lt' (by norm_num)
  have hv0 : (0:ℚ) < (v:ℚ) := by exact_mod_cast hv.trans_lt' (by norm_num)
  have hpd0Q : (0:ℚ) < (pd:ℚ) := by exact_mod_cast hpd0
  have hS1 : 1 ≤ pn * Q - P * pd := by
    rw [hpeq, div_lt_div_iff₀ hQ0 hpd0Q] at hlo
    have h2 : P * pd < pn * Q := by exact_mod_cast hlo
    omega
  have hS2 : 1 ≤ u * pd - pn * v := by
    rw [hpeq, div_lt_div_iff₀ hpd0Q hv0] at hhi
    have h2 : pn * v < u * pd := by exact_mod_cast hhi
    omega
  have hdet1 : u * Q - P * v = 1 := by
    have hlt : (P:ℚ)/(Q:ℚ) < (u:ℚ)/(v:ℚ) := lt_trans hlo hhi
    rw [div_lt_div_iff₀ hQ0 hv0] at hlt
    have h2 : P * v < u * Q := by exact_mod_cast hlt
    rcases hdet with h | h
    · exact h
    · omega
  have hkey : pd * (u * Q - P * v) = v * (pn * Q - P * pd) + Q * (u * pd - pn * v) := by
    ring
  rw [hdet1, mul_one] at hkey
  have h3 : v * 1 ≤ v * (pn * Q - P * pd) :=
    mul_le_mul_of_nonneg_left hS1 (by omega)
  have h4 : Q * 1 ≤ Q * (u * pd - pn * v) :=
    mul_le_mul_of_nonneg_left hS2 (by omega)
  omega

/-- Choosing the closer of two bounds enclosing `x` beats any rational that
does not lie strictly between the bounds. -/
theorem min_choice_optimal (x lo hi r : ℚ) (hlo : lo < x) (hhi : x < hi)
    (hrmin : |x - r| ≤ |x - lo| ∧ |x - r| ≤ |x - hi|)
    (p : ℚ) (hnb : p ≤ lo ∨ hi ≤ p) : |x - r| ≤ |x - p| := by
  have h1 : |x - lo| = x - lo := abs_of_pos (by linarith)
  have h2 : |x - hi| = hi - x := by rw [abs_sub_comm]; exact abs_of_pos (by linarith)
  rcases hnb with hp | hp
  · have h3 : |x - p| = x - p := abs_of_pos (by linarith)
    rw [h3]
    rw [h1] at hrmin
    linarith [hrmin.1]
  · have h3 : |x - p| = p - x := by rw [abs_sub_comm]; exact abs_of_pos (by linarith)
    rw [h3]
    rw [h2] at hrmin
    linarith [hrmin.2]

/-- `limit_denominator q 8` returns the best rational approximation of `q`
with denominator at most 8 (CPython contract of the call in
`format_quantity`): the result's denominator fits, and no fraction with
denominator at most 8 is strictly closer to `q`. -/
theorem limit_denominator_spec (q : ℚ) :
    (limit_denominator q 8).den ≤ 8 ∧
      ∀ p : ℚ, p.den ≤ 8 → |q - limit_denominator q 8| ≤ |q - p| := by
  by_cases h8 : q.den ≤ 8
  · refine ⟨?_, ?_⟩
    · simp only [limit_denominator, if_pos h8]
      exact h8
    · intro p hp
      simp only [limit_denominator, if_pos h8]
      simp [abs_nonneg]
  · push_neg at h8
    obtain ⟨hinv, hbreak⟩ := lmFinal_spec q h8
    set s := lmFinal 8 q with hs
    clear_value s
    obtain ⟨hd, hI1, hI2, hdet, hq00, hq10, hq08, hq18, hV9⟩ := hinv
    have hbrk : (8:ℤ) < s.q0 + (s.n.fdiv s.d) * s.q1 := by
      simpa [lmBreak, decide_eq_true_eq] using hbreak
    set a := s.n.fdiv s.d with ha
    clear_value a
    have hq11 : 1 ≤ s.q1 := by
      rcases (by omega : s.q1 = 0 ∨ 1 ≤ s.q1) with h | h
      · rw [h] at hbrk
        simp at hbrk
        omega
      · exact h
    have hdn : s.d ≤ s.n := hV9 hq11
    have hdpos : (0:ℤ) < s.d := by omega
    have haed : a = s.n / s.d := by rw [ha]; exact Int.fdiv_eq_ediv s.n (by omega)
    have hna : a * s.d ≤ s.n := by
      rw [haed]
      have h1 := Int.ediv_mul_le s.n (show s.d ≠ 0 by omega)
      linarith
    set k := ((8:ℤ) - s.q0).fdiv s.q1 with hk
    clear_value k
    have hked : k = (8 - s.q0) / s.q1 := by
      rw [hk]
      exact Int.fdiv_eq_ediv _ (by omega)
    have hk0 : 0 ≤ k := by
      rw [hked]
      exact Int.ediv_nonneg (by omega) (by omega)
    have hkq1 : k * s.q1 ≤ 8 - s.q0 := by
      rw [hked]
      have h1 := Int.ediv_mul_le (8 - s.q0) (show s.q1 ≠ 0 by omega)
      linarith
    have hmodk : s.q1 * ((8 - s.q0) / s.q1) + (8 - s.q0) % s.q1 = 8 - s.q0 :=
      Int.ediv_add_emod _ _
    have hrk : (8 - s.q0) % s.q1 < s.q1 := Int.emod_lt_of_pos _ (by omega)
    set Q := s.q0 + k * s.q1 with hQdef
    clear_value Q
    have hQq1 : (8:ℤ) < Q + s.q1 := by
      rw [hQdef, hked]
      nlinarith [hmodk, hrk]
    have hQ8 : Q ≤ 8 := by
      rw [hQdef]
      linarith
    have hQ1 : 1 ≤ Q := by omega
    have hak : k < a := by
      have h1 : k * s.q1 < a * s.q1 := by linarith
      exact lt_of_mul_lt_mul_right h1 (by omega)
    have hnkd : s.d ≤ s.n - k * s.d := by
      have h1 : 1 * s.d ≤ (a - k) * s.d :=
        mul_le_mul_of_nonneg_right (by omega) (by omega)
      have h2 : (a - k) * s.d = a * s.d - k * s.d := by ring
      rw [h2, one_mul] at h1
      linarith
    set P := s.p0 + k * s.p1 with hP
    clear_value P
    have hA1 : q.num * s.q1 - s.p1 * (q.den : ℤ) =
        -(s.d * (s.p1 * s.q0 - s.p0 * s.q1)) := by
      linear_combination (-s.q1) * hI1 + s.p1 * hI2
    have hA2 : q.num * Q - P * (q.den : ℤ) =
        (s.n - k * s.d) * (s.p1 * s.q0 - s.p0 * s.q1) := by
      rw [hQdef, hP]
      linear_combination (-(s.q0 + k * s.q1)) * hI1 + (s.p0 + k * s.p1) * hI2
    have hA3 : s.p1 * Q - P * s.q1 = s.p1 * s.q0 - s.p0 * s.q1 := by
      rw [hQdef, hP]
      ring
    set b1 : ℚ := ((P : ℤ) : ℚ) / ((Q : ℤ) : ℚ) with hb1
    clear_value b1
    set b2 : ℚ := ((s.p1 : ℤ) : ℚ) / ((s.q1 : ℤ) : ℚ) with hb2
    clear_value b2
    have hnot : ¬ q.den ≤ 8 := by omega
    have hlim : limit_denominator q 8 = if |b2 - q| ≤ |b1 - q| then b2 else b1 := by
      simp only [limit_denominator, if_neg hnot, Nat.cast_ofNat]
      rw [← hs, ← hk, ← hP, ← hQdef, ← hb1, ← hb2]
    have hq1Q : (0:ℚ) < ((s.q1 : ℤ) : ℚ) := by
      have h1 : (0:ℤ) < s.q1 := by omega
      exact_mod_cast h1
    have hQQ : (0:ℚ) < ((Q : ℤ) : ℚ) := by
      have h1 : (0:ℤ) < Q := by omega
      exact_mod_cast h1
    have hdQ : (0:ℚ) < ((q.den : ℤ) : ℚ) := by
      have h1 : (0:ℤ) < (q.den : ℤ) := by omega
      exact_mod_cast h1
    have hqeq : q = ((q.num : ℤ) : ℚ) / ((q.den : ℤ) : ℚ) := by
      push_cast
      exact (Rat.num_div_den q).symm
    have hden_b1 : b1.den ≤ 8 := by
      have h1 : ((Rat.divInt P Q).den : ℤ) ∣ Q := Rat.den_dvd P Q
      rw [Rat.divInt_eq_div] at h1
      have h2 := Int.le_of_dvd (by omega) h1
      rw [hb1]
      have h3 : ((((P:ℤ):ℚ) / ((Q:ℤ):ℚ)).den : ℤ) ≤ 8 := by omega
      exact_mod_cast h3
    have hden_b2 : b2.den ≤ 8 := by
      have h1 : ((Rat.divInt s.p1 s.q1).den : ℤ) ∣ s.q1 := Rat.den_dvd s.p1 s.q1
      rw [Rat.divInt_eq_div] at h1
      have h2 := Int.le_of_dvd (by omega) h1
      rw [hb2]
      have h3 : ((((s.p1:ℤ):ℚ) / ((s.q1:ℤ):ℚ)).den : ℤ) ≤ 8 := by omega
      exact_mod_cast h3
    have hdenfits : (limit_denominator q 8).den ≤ 8 := by
      rw [hlim]
      split
      · exact hden_b2
      · exact hden_b1
    refine ⟨hdenfits, ?_⟩
    intro p hp
    rcases hdet with he | he
    · -- determinant +1 : b1 < q < b2
      rw [he] at hA1 hA2
      have hlo : b1 < q := by
        rw [hb1, hqeq, div_lt_div_iff₀ hQQ hdQ]
        have h2 : P * (q.den : ℤ) < q.num * Q := by linarith [hA2, hnkd, hdpos]
        exact_mod_cast h2
      have hhi : q < b2 := by
        rw [hb2, hqeq, div_lt_div_iff₀ hdQ hq1Q]
        have h2 : q.num * s.q1 < s.p1 * (q.den : ℤ) := by linarith [hA1, hdpos]
        exact_mod_cast h2
      have hnb : p ≤ b1 ∨ b2 ≤ p := by
        by_contra hc
        push_neg at hc
        rw [hb1] at hc
        rw [hb2] at hc
        exact no_fraction_between hq11 hQ1 (Or.inl (hA3.trans he)) p hp
          (by omega) hc.1 hc.2
      rw [hlim]
      split
      · rename_i hcond
        apply min_choice_optimal q b1 b2 b2 hlo hhi ?_ p hnb
        constructor
        · rw [abs_sub_comm q b2, abs_sub_comm q b1]
          exact hcond
        · exact le_rfl
      · rename_i hcond
        push_neg at hcond
        apply min_choice_optimal q b1 b2 b1 hlo hhi ?_ p hnb
        constructor
        · exact le_rfl
        · rw [abs_sub_comm q b1, abs_sub_comm q b2]
          exact le_of_lt hcond
    · -- determinant -1 : b2 < q < b1
      rw [he] at hA1 hA2
      have hlo : b2 < q := by
        rw [hb2, hqeq, div_lt_div_iff₀ hq1Q hdQ]
        have h2 : s.p1 * (q.den : ℤ) < q.num * s.q1 := by linarith [hA1, hdpos]
        exact_mod_cast h2
      have hhi : q < b1 := by
        rw [hb1, hqeq, div_lt_div_iff₀ hdQ hQQ]
        have h2 : q.num * Q < P * (q.den : ℤ) := by linarith [hA2, hnkd, hdpos]
        exact_mod_cast h2
      have hdet' : P * s.q1 - s.p1 * Q = 1 := by linarith [hA3]
      have hnb : p ≤ b2 ∨ b1 ≤ p := by
        by_contra hc
        push_neg at hc
        rw [hb2] at hc
        rw [hb1] at hc
        exact no_fraction_between hQ1 hq11 (Or.inl hdet') p hp
          (by omega) hc.1 hc.2
      rw [hlim]
      split
      · rename_i hcond
        apply min_choice_optimal q b2 b1 b2 hlo hhi ?_ p hnb
        constructor
        · exact le_rfl
        · rw [abs_sub_comm q b2, abs_sub_comm q b1]
          exact hcond
      · rename_i hcond
        push_neg at hcond
        apply min_choice_optimal q b2 b1 b1 hlo hhi ?_ p hnb
        constructor
        · rw [abs_sub_comm q b1, abs_sub_comm q b2]
          exact le_of_lt hcond
        · exact le_rfl

/-- Mixed-form rendering of `qtyChars`: when the limited fraction is a
non-integer greater than one, the quantity string is
`"whole remainder/denominator"` with the exact euclidean decomposition
(the remainder cannot vanish because the fraction is reduced). -/
theorem qtyChars_mixed (f : ℚ) (hden : 1 < f.den) (hnum : (f.den : ℤ) < f.num) :
    ∃ w r : ℤ, 0 < w ∧ 0 < r ∧ r < (f.den : ℤ) ∧ f.num = w * (f.den : ℤ) + r ∧
      qtyChars f =
        pyStrIntL w ++ ' ' :: (pyStrIntL r ++ '/' :: pyStrNatL f.den) := by
  have hden1 : f.den ≠ 1 := by omega
  have hdpos : (0:ℤ) < (f.den : ℤ) := by exact_mod_cast f.den_pos
  set w := f.num.fdiv (f.den : ℤ) with hw
  set r := f.num.fmod (f.den : ℤ) with hr
  have hfd : w = f.num / (f.den : ℤ) := by
    rw [hw]
    exact Int.fdiv_eq_ediv _ (by omega)
  have hfm : r = f.num % (f.den : ℤ) := by
    rw [hr]
    exact Int.fmod_eq_emod _ (by omega)
  have hr0 : 0 ≤ r := by
    rw [hfm]
    exact Int.emod_nonneg _ (by omega)
  have hrlt : r < (f.den : ℤ) := by
    rw [hfm]
    exact Int.emod_lt_of_pos _ hdpos
  have hrne : r ≠ 0 := by
    intro hz
    have hdvd : (f.den : ℤ) ∣ f.num := by
      apply Int.dvd_of_emod_eq_zero
      rw [← hfm]
      exact hz
    have hdvd2 : f.den ∣ f.num.natAbs := by
      have := Int.natAbs_dvd_natAbs.mpr hdvd
      simpa using this
    have hcop : Nat.gcd f.num.natAbs f.den = 1 := f.reduced
    have : f.den ∣ 1 := hcop ▸ Nat.dvd_gcd hdvd2 dvd_rfl
    exact hden1 (Nat.dvd_one.mp this)
  have hid : (f.den : ℤ) * w + r = f.num := by
    rw [hfd, hfm]
    exact Int.ediv_add_emod f.num (f.den : ℤ)
  have hw1 : 1 ≤ w := by
    rw [hfd]
    exact (Int.le_ediv_iff_mul_le hdpos).mpr (by linarith)
  refine ⟨w, r, by omega, by omega, hrlt, by linarith, ?_⟩
  simp only [qtyChars, if_neg hden1, if_pos hnum, if_pos hrne]

/-- C8 (amended): the three displayed examples (with the tbsp example
corrected to "1 1/2 tbsps" per the claim's own pluralization rule), the
best-fraction property of the denominator-8 rounding, the integer and
mixed renderings, and pluralization exactly when the value exceeds 1 and
the unit does not already end in 's'. -/
theorem claim_C8_format_quantity :
    format_quantity (some (1/2 : ℚ)) (some "tsp") = "1/2 tsp" ∧
    format_quantity (some (2 : ℚ)) (some "cup") = "2 cups" ∧
    format_quantity (some (3/2 : ℚ)) (some "tbsp") = "1 1/2 tbsps" ∧
    (∀ q : ℚ, (limit_denominator q 8).den ≤ 8 ∧
      ∀ p : ℚ, p.den ≤ 8 → |q - limit_denominator q 8| ≤ |q - p|) ∧
    (∀ q : ℚ, (limit_denominator q 8).den = 1 →
      qtyChars (limit_denominator q 8) = pyStrIntL (limit_denominator q 8).num) ∧
    (∀ q : ℚ, 1 < (limit_denominator q 8).den →
      ((limit_denominator q 8).den : ℤ) < (limit_denominator q 8).num →
      ∃ w r : ℤ, 0 < w ∧ 0 < r ∧ r < ((limit_denominator q 8).den : ℤ) ∧
        (limit_denominator q 8).num = w * ((limit_denominator q 8).den : ℤ) + r ∧
        qtyChars (limit_denominator q 8) =
          pyStrIntL w ++ ' ' ::
            (pyStrIntL r ++ '/' :: pyStrNatL (limit_denominator q 8).den)) ∧
    (∀ (q : ℚ) (u : String), u ≠ "" →
      (unitDisplay q u = u ++ "s" ↔ (1 < q ∧ unitEndsS u = false))) := by
  refine ⟨?_, ?_, ?_, limit_denominator_spec, ?_, ?_, ?_⟩
  · with_unfolding_all decide
  · with_unfolding_all decide
  · with_unfolding_all decide
  · intro q hden
    simp only [qtyChars, if_pos hden]
  · intro q hden hnum
    exact qtyChars_mixed _ hden hnum
  · intro q u hu
    constructor
    · intro heq
      by_contra hcond
      have hud : unitDisplay q u = u := by
        unfold unitDisplay
        rw [if_neg]
        intro hc
        exact hcond ⟨hc.2.1, hc.2.2⟩
      rw [hud] at heq
      have hlen := congrArg String.length heq
      rw [String.length_append] at hlen
      have hs1 : ("s" : String).length = 1 := rfl
      omega
    · intro hc
      unfold unitDisplay
      rw [if_pos ⟨hu, hc.1, hc.2⟩]

/-- Witness for the quantified clauses of C8: the pluralization rule at the
concrete pair (2, "cup"). -/
theorem claim_C8_format_quantity_witness :
    ("cup" : String) ≠ "" ∧
      (unitDisplay 2 "cup" = "cup" ++ "s" ↔ (1 < (2:ℚ) ∧ unitEndsS "cup" = false)) :=
  ⟨by with_unfolding_all decide,
    claim_C8_format_quantity.2.2.2.2.2.2 2 "cup" (by with_unfolding_all decide)⟩

/-- C10: a positive quantity below 1/16 rounds to the fraction 0 (0 is
strictly closer than 1/8, the smallest positive candidate), so the display
is "0" with the unpluralized unit. -/
theorem claim_C10_small_quantity_formats_as_zero (q : ℚ) (h0 : 0 < q)
    (h16 : q < 1/16) :
    limit_denominator q 8 = 0 ∧
      ∀ u : String, format_quantity (some q) (some u) =
        String.mk (pyStrip ('0' :: ' ' :: u.data)) := by
  obtain ⟨hden, hbest⟩ := limit_denominator_spec q
  have hr0 : limit_denominator q 8 = 0 := by
    by_contra hne
    set r := limit_denominator q 8 with hrdef
    have h1 : |q - r| ≤ |q - 0| := hbest 0 (by norm_num)
    rw [sub_zero, abs_of_pos h0] at h1
    have hrne : r.num ≠ 0 := Rat.num_ne_zero.mpr hne
    have h2 : (1:ℤ) ≤ |r.num| := Int.one_le_abs hrne
    have hdenpos : (0:ℚ) < (r.den : ℚ) := by exact_mod_cast r.den_pos
    have habs : |r| = ((|r.num| : ℤ) : ℚ) / (r.den : ℚ) := by
      have hrcast : r = (r.num : ℚ) / (r.den : ℚ) := (Rat.num_div_den r).symm
      conv_lhs => rw [hrcast]
      rw [abs_div, ← Int.cast_abs, abs_of_pos hdenpos]
    have hden8 : ((r.den : ℚ)) ≤ 8 := by exact_mod_cast hden
    have h4 : (1:ℚ) ≤ ((|r.num| : ℤ) : ℚ) := by exact_mod_cast h2
    have h3 : (1:ℚ)/8 ≤ |r| := by
      rw [habs, div_le_div_iff₀ (by norm_num : (0:ℚ) < 8) hdenpos]
      linarith
    have h5 : |r| ≤ |q - r| + |q| := by
      calc |r| = |(r - q) + q| := by ring_nf
        _ ≤ |r - q| + |q| := abs_add _ _
        _ = |q - r| + |q| := by rw [abs_sub_comm]
    rw [abs_of_pos h0] at h5
    linarith
  refine ⟨hr0, ?_⟩
  intro u
  have hq0 : qtyChars 0 = ['0'] := by with_unfolding_all decide
  have hud : unitDisplay q u = u := by
    unfold unitDisplay
    rw [if_neg]
    intro hc
    have : (1:ℚ) < 1/16 := lt_trans hc.2.1 h16
    norm_num at this
  simp only [format_quantity, hr0, hq0, hud, List.singleton_append]

/-- Witness for C10 at the concrete quantity 1/20 with unit "tsp". -/
theorem claim_C10_small_quantity_formats_as_zero_witness :
    (0:ℚ) < 1/20 ∧ (1/20 : ℚ) < 1/16 ∧
      format_quantity (some (1/20)) (some "tsp") = "0 tsp" := by
  refine ⟨by with_unfolding_all decide, by with_unfolding_all decide, ?_⟩
  have h := (claim_C10_small_quantity_formats_as_zero (1/20)
    (by with_unfolding_all decide) (by with_unfolding_all decide)).2 "tsp"
  rw [h]
  with_unfolding_all decide
